import Mathlib

/-!
# Verification of the rustSAT DPLL solver core

A shallow embedding of `src/sat_solver/src/main.rs` (the `Solver` struct and its
methods), together with theorems checking the natural-language specification
against it.

Modelling conventions:
* `Vec<T>` fields indexed only at provably in-range positions are modelled as
  total functions from `Nat`; `Vec` reads/writes whose index is data-dependent
  (and can genuinely go out of bounds) are modelled with `List.get?`, an
  out-of-range access producing `none` — the Rust program panics there.
  Operations that can panic therefore return `Option`; `none` means the Rust
  program does not return normally (panic, or a diverging loop).
* The watch-list traversal in `propagate` and the fixpoint loop in `bcp` are
  given explicit fuel.  The fuel chosen equals the loop bound of the Rust code
  on every state where the loop terminates, so a `some` result coincides with
  the Rust result; exhausted fuel yields `none`.
* `solve` is recursive; `solveFuel` takes the recursion depth as fuel and
  theorems quantify over it.
* Rust's stable `sort_by_key(|c| c.len())` is modelled by a stable insertion
  sort on clause length.
-/

namespace RustSAT

/-- The `Solver` struct of the source.  `assignment` models
`Vec<Option<bool>>` of length `num_vars + 1`; `positives`, `negatives`,
`literal_polarity` model `Vec`s of length `num_vars + 1`; `watches` models
`Vec<(usize, usize)>` of length `clauses.len()`; `watch_lists` models
`Vec<Vec<usize>>` of length `2 * (num_vars + 1)`. -/
structure Solver where
  clauses : List (List Int)
  num_vars : Nat
  assignment : Nat → Option Bool
  history : List Int
  positives : Nat → Nat
  negatives : Nat → Nat
  literal_polarity : Nat → Int
  watches : Nat → Nat × Nat
  watch_lists : Nat → List Nat

/-- `Solver::lit_index`. -/
def lit_index (lit : Int) : Nat :=
  if 0 < lit then 2 * lit.natAbs else 2 * lit.natAbs + 1

/-- The tautology test inside `preprocess`'s `retain` closure: some pair of
positions `i < j` with `clause[i] == -clause[j]`. -/
def hasComplPair : List Int → Bool
  | [] => false
  | l :: rest => rest.any (fun x => l == -x) || hasComplPair rest

/-- Insert a clause into a length-sorted list, before the first clause of
length `≥` its own (stable insertion). -/
def insertByLen (c : List Int) : List (List Int) → List (List Int)
  | [] => [c]
  | d :: ds => if d.length < c.length then d :: insertByLen c ds else c :: d :: ds

/-- Stable sort of the clause list ascending by length; models Rust's stable
`sort_by_key(|c| c.len())`. -/
def sortByLen : List (List Int) → List (List Int)
  | [] => []
  | c :: cs => insertByLen c (sortByLen cs)

/-- Append a clause index to one watch list. -/
def pushWL (wl : Nat → List Nat) (k idx : Nat) : Nat → List Nat :=
  Function.update wl k (wl k ++ [idx])

/-- The watch-list construction loop of `preprocess`: watch the first literal
of each nonempty clause, and the second when the clause has length `> 1`. -/
def buildWL (wl : Nat → List Nat) (idx : Nat) : List (List Int) → (Nat → List Nat)
  | [] => wl
  | [] :: cs => buildWL wl (idx + 1) cs
  | (l0 :: []) :: cs => buildWL (pushWL wl (lit_index l0) idx) (idx + 1) cs
  | (l0 :: l1 :: _) :: cs =>
    buildWL (pushWL (pushWL wl (lit_index l0) idx) (lit_index l1) idx) (idx + 1) cs

/-- The polarity-counting loop of `preprocess` over one clause. -/
def countClausePol (p q : Nat → Nat) : List Int → (Nat → Nat) × (Nat → Nat)
  | [] => (p, q)
  | l :: ls =>
    if 0 < l then countClausePol (Function.update p l.natAbs (p l.natAbs + 1)) q ls
    else countClausePol p (Function.update q l.natAbs (q l.natAbs + 1)) ls

/-- The polarity-counting loop of `preprocess` over all clauses. -/
def countPols (p q : Nat → Nat) : List (List Int) → (Nat → Nat) × (Nat → Nat)
  | [] => (p, q)
  | c :: cs =>
    let pq := countClausePol p q c
    countPols pq.1 pq.2 cs

/-- `Solver::preprocess`: drop clauses with a complementary pair, stable-sort
by length, build the initial watch pairs and watch lists, count polarities and
classify pure variables. -/
def preprocess (s : Solver) : Solver :=
  let kept := s.clauses.filter (fun c => !hasComplPair c)
  let sorted := sortByLen kept
  let pq := countPols (fun _ => 0) (fun _ => 0) sorted
  let polarity : Nat → Int := fun v =>
    if 1 ≤ v ∧ v ≤ s.num_vars then
      if 0 < pq.1 v ∧ pq.2 v = 0 then 1
      else if 0 < pq.2 v ∧ pq.1 v = 0 then -1
      else 0
    else 0
  { s with
    clauses := sorted
    watches := fun _ => (0, 1)
    watch_lists := buildWL (fun _ => []) 0 sorted
    positives := pq.1
    negatives := pq.2
    literal_polarity := polarity }

/-- `Solver::new`. -/
def Solver.new (clauses : List (List Int)) (num_vars : Nat) : Solver :=
  preprocess
    { clauses := clauses
      num_vars := num_vars
      assignment := fun _ => none
      history := []
      positives := fun _ => 0
      negatives := fun _ => 0
      literal_polarity := fun _ => 0
      watches := fun _ => (0, 1)
      watch_lists := fun _ => [] }

/-- `Solver::val`.  The outer `Option` models the `Vec` read
`self.assignment[lit.abs()]`, which panics when `|lit| > num_vars`. -/
def Solver.val (s : Solver) (lit : Int) : Option (Option Bool) :=
  if lit.natAbs ≤ s.num_vars then
    some
      (match s.assignment lit.natAbs with
        | some v => some (if 0 < lit then v else !v)
        | none => none)
  else none

/-- `Solver::assign_lit`.  `none` models the panic on `|lit| > num_vars`. -/
def Solver.assign_lit (s : Solver) (lit : Int) : Option Solver :=
  if lit.natAbs ≤ s.num_vars then
    some
      (match s.assignment lit.natAbs with
        | none =>
          { s with
            assignment := Function.update s.assignment lit.natAbs (some (decide (0 < lit)))
            history := s.history ++ [lit] }
        | some _ => s)
  else none

/-- The `while self.history.len() > saved_len` pop loop of `backtrack`.  Each
iteration shortens the trail by one, so the initial trail length is exact
fuel: the `0` case is reached only with `history.length ≤ saved_len`. -/
def backtrackFuel : Nat → Solver → Nat → Solver
  | 0, s, _ => s
  | fuel + 1, s, saved_len =>
    if saved_len < s.history.length then
      match s.history.getLast? with
      | none => s
      | some lit =>
        backtrackFuel fuel
          { s with
            history := s.history.dropLast
            assignment := Function.update s.assignment lit.natAbs none }
          saved_len
    else s

/-- `Solver::backtrack`: pop the trail down to `saved_len`, clearing each
popped variable. -/
def Solver.backtrack (s : Solver) (saved_len : Nat) : Solver :=
  backtrackFuel s.history.length s saved_len

/-- `Vec::swap_remove(i)`: replace position `i` by the last element and pop. -/
def swapRemove (l : List Nat) (i : Nat) : List Nat :=
  match l.getLast? with
  | none => l
  | some last => (l.set i last).dropLast

/-- The inner `for j in 2..clause.len()` scan of `propagate`, looking for a
non-false replacement watch; `none` models a panic inside the scan. -/
def findNewWatch (s : Solver) (clause : List Int) (current other : Nat) :
    List Nat → Option (Option Nat)
  | [] => some none
  | j :: js =>
    if j = current ∨ j = other then findNewWatch s clause current other js
    else
      match clause.get? j with
      | none => none
      | some lj =>
        match s.val lj with
        | none => none
        | some v =>
          if v = some false then findNewWatch s clause current other js
          else some (some j)

/-- The `while i < self.watch_lists[neg_idx].len()` loop of `propagate`.
Each iteration either advances `i` or removes an element of the traversed
list, so on every state the Rust loop terminates on, it runs at most
`(watch_lists neg_idx).length - i` iterations; the fuel passed by
`propagate` is therefore exact.  `none` models a panic (or, on states the
Rust loop diverges on, its divergence). -/
def propLoop (s : Solver) (neg_lit : Int) (neg_idx i : Nat) : Nat → Option Solver
  | 0 => none
  | fuel + 1 =>
    if h : i < (s.watch_lists neg_idx).length then
      let clause_idx := (s.watch_lists neg_idx).get ⟨i, h⟩
      match s.clauses.get? clause_idx with
      | none => none
      | some clause =>
        let first := (s.watches clause_idx).1
        let second := (s.watches clause_idx).2
        match clause.get? first with
        | none => none
        | some lfirst =>
          let current := if lfirst = neg_lit then first else second
          let other := if lfirst = neg_lit then second else first
          match clause.get? other with
          | none => none
          | some lother =>
            match s.val lother with
            | none => none
            | some vother =>
              if vother = some true then propLoop s neg_lit neg_idx (i + 1) fuel
              else
                match findNewWatch s clause current other
                    (List.range' 2 (clause.length - 2)) with
                | none => none
                | some none => propLoop s neg_lit neg_idx (i + 1) fuel
                | some (some j) =>
                  match clause.get? j with
                  | none => none
                  | some lj =>
                    let new_idx := lit_index lj
                    let watches' := Function.update s.watches clause_idx
                      (if current = first then (j, second) else (first, j))
                    let wl1 := Function.update s.watch_lists neg_idx
                      (swapRemove (s.watch_lists neg_idx) i)
                    let wl2 := Function.update wl1 new_idx (wl1 new_idx ++ [clause_idx])
                    propLoop { s with watches := watches', watch_lists := wl2 }
                      neg_lit neg_idx i fuel
    else some s

/-- `Solver::propagate`. -/
def Solver.propagate (s : Solver) (lit : Int) : Option (Solver × Bool) :=
  match s.val lit with
  | none => none
  | some (some v) => some (s, v)
  | some none =>
    match s.assign_lit lit with
    | none => none
    | some s1 =>
      let neg_lit := -lit
      let neg_idx := lit_index neg_lit
      match propLoop s1 neg_lit neg_idx 0 ((s1.watch_lists neg_idx).length + 1) with
      | none => none
      | some s2 => some (s2, true)

/-- Result of one full clause scan inside `bcp`. -/
inductive PassResult where
  | panic : PassResult
  | conflict : Solver → PassResult
  | done : Solver → Bool → PassResult

/-- The literal-classification loop of `bcp` over one clause, threading
`(unassigned_count, last_unassigned)`; `none` models a panic in `val`. -/
def scanClause (s : Solver) : List Int → Nat → Int → Option (Nat × Int)
  | [], cnt, last => some (cnt, last)
  | l :: ls, cnt, last =>
    match s.val l with
    | none => none
    | some (some true) => some (2, last)
    | some (some false) => scanClause s ls cnt last
    | some none =>
      if 1 < cnt + 1 then some (cnt + 1, l) else scanClause s ls (cnt + 1) l

/-- One `for clause_idx in 0..self.clauses.len()` pass of `bcp`. -/
def bcpPass (s : Solver) (changed : Bool) : List Nat → PassResult
  | [] => .done s changed
  | idx :: idxs =>
    match s.clauses.get? idx with
    | none => .panic
    | some clause =>
      match scanClause s clause 0 0 with
      | none => .panic
      | some (cnt, last) =>
        if cnt = 0 then .conflict s
        else if cnt = 1 then
          match s.val last with
          | none => .panic
          | some none =>
            match s.propagate last with
            | none => .panic
            | some (s', true) => bcpPass s' true idxs
            | some (s', false) => .conflict s'
          | some (some _) => bcpPass s changed idxs
        else bcpPass s changed idxs

/-- Number of `None` entries of the `assignment` vector (indices
`0..=num_vars`). -/
def countUnassigned (s : Solver) : Nat :=
  (List.range (s.num_vars + 1)).countP (fun v => (s.assignment v).isNone)

/-- The `while changed` fixpoint loop of `bcp`, with fuel. -/
def bcpLoop : Nat → Solver → Option (Solver × Bool)
  | 0, _ => none
  | fuel + 1, s =>
    match bcpPass s false (List.range s.clauses.length) with
    | .panic => none
    | .conflict s' => some (s', false)
    | .done s' changed => if changed then bcpLoop fuel s' else some (s', true)

/-- `Solver::bcp`.  Every pass that sets `changed` makes at least one new
assignment of a variable `≤ num_vars`, so `countUnassigned + 1` passes are
exactly enough fuel on every state the Rust loop terminates on. -/
def Solver.bcp (s : Solver) : Option (Solver × Bool) :=
  bcpLoop (countUnassigned s + 1) s

/-- The satisfied-clause check (`for &lit ... if let Some(true) = self.val(lit)`)
inside `pick_variable`; `none` models a panic in `val`. -/
def clauseSat (s : Solver) : List Int → Option Bool
  | [] => some false
  | l :: ls =>
    match s.val l with
    | none => none
    | some (some true) => some true
    | some _ => clauseSat s ls

/-- The score-increment loop of `pick_variable` over one unsatisfied clause;
`none` models the panic of `self.assignment[var]` on `var > num_vars`. -/
def scoreClauseLits (s : Solver) (sc : Nat → Nat) : List Int → Option (Nat → Nat)
  | [] => some sc
  | l :: ls =>
    if l.natAbs ≤ s.num_vars then
      match s.assignment l.natAbs with
      | none => scoreClauseLits s (Function.update sc l.natAbs (sc l.natAbs + 1)) ls
      | some _ => scoreClauseLits s sc ls
    else none

/-- The scoring loop of `pick_variable` over all clauses. -/
def computeScores (s : Solver) (sc : Nat → Nat) : List (List Int) → Option (Nat → Nat)
  | [] => some sc
  | c :: cs =>
    match clauseSat s c with
    | none => none
    | some true => computeScores s sc cs
    | some false =>
      match scoreClauseLits s sc c with
      | none => none
      | some sc' => computeScores s sc' cs

/-- The best-variable selection loop of `pick_variable` (fold over
`1..=num_vars` threading `(best_var, best_score)`). -/
def selectBest (s : Solver) (sc : Nat → Nat) : List Nat → Nat × Nat → Nat × Nat
  | [], acc => acc
  | v :: vs, acc =>
    if (s.assignment v).isNone && decide (acc.2 < sc v) then selectBest s sc vs (v, sc v)
    else selectBest s sc vs acc

/-- `Solver::pick_variable`; `some 0` is the sentinel "no variable". -/
def Solver.pick_variable (s : Solver) : Option Nat :=
  match computeScores s (fun _ => 0) s.clauses with
  | none => none
  | some sc => some (selectBest s sc (List.range' 1 s.num_vars) (0, 0)).1

/-- The pure-literal pre-pass at the head of `solve` (`for v in 1..=num_vars`).
`some (.inl s)` is the early `return false` path (after a failed propagate),
carrying the state at that point; `some (.inr s)` is normal completion. -/
def pureLoop (s : Solver) : List Nat → Option (Solver ⊕ Solver)
  | [] => some (.inr s)
  | v :: vs =>
    if (s.assignment v).isNone && !(s.literal_polarity v == 0) then
      let lit : Int := if 0 < s.literal_polarity v then (v : Int) else -(v : Int)
      match s.propagate lit with
      | none => none
      | some (s1, false) => some (.inl s1)
      | some (s1, true) =>
        match s1.assign_lit lit with
        | none => none
        | some s2 => pureLoop s2 vs
    else pureLoop s vs

/-- `Solver::solve`, with the recursion depth as fuel. -/
def solveFuel : Nat → Solver → Option (Solver × Bool)
  | 0, _ => none
  | fuel + 1, s =>
    let entry_snapshot := s.history.length
    match (if entry_snapshot = 0 then pureLoop s (List.range' 1 s.num_vars)
           else some (.inr s)) with
    | none => none
    | some (.inl s1) => some (s1.backtrack entry_snapshot, false)
    | some (.inr s1) =>
      match s1.bcp with
      | none => none
      | some (s2, false) => some (s2.backtrack entry_snapshot, false)
      | some (s2, true) =>
        match s2.pick_variable with
        | none => none
        | some pick_var =>
          if pick_var = 0 then some (s2, true)
          else
            let try_positive_first := decide (s2.negatives pick_var ≤ s2.positives pick_var)
            let snapshot := s2.history.length
            let first_lit : Int :=
              if try_positive_first then (pick_var : Int) else -(pick_var : Int)
            match s2.propagate first_lit with
            | none => none
            | some (s3, b3) =>
              match (if b3 then solveFuel fuel s3 else some (s3, false)) with
              | none => none
              | some (s4, true) => some (s4, true)
              | some (s4, false) =>
                let s5 := s4.backtrack snapshot
                match s5.propagate (-first_lit) with
                | none => none
                | some (s6, b6) =>
                  match (if b6 then solveFuel fuel s6 else some (s6, false)) with
                  | none => none
                  | some (s7, true) => some (s7, true)
                  | some (s7, false) => some (s7.backtrack entry_snapshot, false)

/-- `Solver::solve` at the recursion-depth bound of the search (one level per
decision plus the leaf, at most `num_vars + 2`). -/
def Solver.solve (s : Solver) : Option (Solver × Bool) :=
  solveFuel (s.num_vars + 2) s

/-- The verdict of a run: `some true` = SAT, `some false` = UNSAT, `none` =
no boolean outcome (panic / exhausted fuel). -/
def verdict (r : Option (Solver × Bool)) : Option Bool :=
  r.map (·.2)

/-! ## Claim C6: the watch-free variant of the solver

Following the spec's words ("a variant of the solver that skips all watch-pair
and watch-list maintenance in propagate, keeping only the assignment and the
full-scan BCP"): `propagateNW` is `propagate` without the watch-list
traversal, and `bcpPassNW`/`bcpLoopNW`/`bcpNW`/`pureLoopNW`/`solveFuelNW`
are the same drivers calling it. -/

/-- Variant `propagate` with the watch-list maintenance removed. -/
def propagateNW (s : Solver) (lit : Int) : Option (Solver × Bool) :=
  match s.val lit with
  | none => none
  | some (some v) => some (s, v)
  | some none =>
    match s.assign_lit lit with
    | none => none
    | some s1 => some (s1, true)

/-- Variant of `bcpPass` calling `propagateNW`. -/
def bcpPassNW (s : Solver) (changed : Bool) : List Nat → PassResult
  | [] => .done s changed
  | idx :: idxs =>
    match s.clauses.get? idx with
    | none => .panic
    | some clause =>
      match scanClause s clause 0 0 with
      | none => .panic
      | some (cnt, last) =>
        if cnt = 0 then .conflict s
        else if cnt = 1 then
          match s.val last with
          | none => .panic
          | some none =>
            match propagateNW s last with
            | none => .panic
            | some (s', true) => bcpPassNW s' true idxs
            | some (s', false) => .conflict s'
          | some (some _) => bcpPassNW s changed idxs
        else bcpPassNW s changed idxs

/-- Variant of `bcpLoop` calling `bcpPassNW`. -/
def bcpLoopNW : Nat → Solver → Option (Solver × Bool)
  | 0, _ => none
  | fuel + 1, s =>
    match bcpPassNW s false (List.range s.clauses.length) with
    | .panic => none
    | .conflict s' => some (s', false)
    | .done s' changed => if changed then bcpLoopNW fuel s' else some (s', true)

/-- Variant of `bcp`. -/
def bcpNW (s : Solver) : Option (Solver × Bool) :=
  bcpLoopNW (countUnassigned s + 1) s

/-- Variant of the pure-literal pre-pass calling `propagateNW`. -/
def pureLoopNW (s : Solver) : List Nat → Option (Solver ⊕ Solver)
  | [] => some (.inr s)
  | v :: vs =>
    if (s.assignment v).isNone && !(s.literal_polarity v == 0) then
      let lit : Int := if 0 < s.literal_polarity v then (v : Int) else -(v : Int)
      match propagateNW s lit with
      | none => none
      | some (s1, false) => some (.inl s1)
      | some (s1, true) =>
        match s1.assign_lit lit with
        | none => none
        | some s2 => pureLoopNW s2 vs
    else pureLoopNW s vs

/-- Variant of `solveFuel` with all watch bookkeeping skipped. -/
def solveFuelNW : Nat → Solver → Option (Solver × Bool)
  | 0, _ => none
  | fuel + 1, s =>
    let entry_snapshot := s.history.length
    match (if entry_snapshot = 0 then pureLoopNW s (List.range' 1 s.num_vars)
           else some (.inr s)) with
    | none => none
    | some (.inl s1) => some (s1.backtrack entry_snapshot, false)
    | some (.inr s1) =>
      match bcpNW s1 with
      | none => none
      | some (s2, false) => some (s2.backtrack entry_snapshot, false)
      | some (s2, true) =>
        match s2.pick_variable with
        | none => none
        | some pick_var =>
          if pick_var = 0 then some (s2, true)
          else
            let try_positive_first := decide (s2.negatives pick_var ≤ s2.positives pick_var)
            let snapshot := s2.history.length
            let first_lit : Int :=
              if try_positive_first then (pick_var : Int) else -(pick_var : Int)
            match propagateNW s2 first_lit with
            | none => none
            | some (s3, b3) =>
              match (if b3 then solveFuelNW fuel s3 else some (s3, false)) with
              | none => none
              | some (s4, true) => some (s4, true)
              | some (s4, false) =>
                let s5 := s4.backtrack snapshot
                match propagateNW s5 (-first_lit) with
                | none => none
                | some (s6, b6) =>
                  match (if b6 then solveFuelNW fuel s6 else some (s6, false)) with
                  | none => none
                  | some (s7, true) => some (s7, true)
                  | some (s7, false) => some (s7.backtrack entry_snapshot, false)

/-! ## Basic lemmas about the operations -/

/-- All fields except the watch structures agree. -/
def SameCore (s t : Solver) : Prop :=
  t.clauses = s.clauses ∧ t.num_vars = s.num_vars ∧ t.assignment = s.assignment ∧
    t.history = s.history ∧ t.positives = s.positives ∧ t.negatives = s.negatives ∧
    t.literal_polarity = s.literal_polarity

theorem sameCore_refl (s : Solver) : SameCore s s :=
  ⟨rfl, rfl, rfl, rfl, rfl, rfl, rfl⟩

theorem sameCore_trans {s t u : Solver} (h1 : SameCore s t) (h2 : SameCore t u) :
    SameCore s u := by
  obtain ⟨a1, a2, a3, a4, a5, a6, a7⟩ := h1
  obtain ⟨b1, b2, b3, b4, b5, b6, b7⟩ := h2
  exact ⟨b1.trans a1, b2.trans a2, b3.trans a3, b4.trans a4, b5.trans a5,
    b6.trans a6, b7.trans a7⟩

/-- The watch-list traversal of `propagate` changes only the watch
structures. -/
theorem propLoop_sameCore :
    ∀ (fuel : Nat) (s : Solver) (neg_lit : Int) (neg_idx i : Nat) (s' : Solver),
      propLoop s neg_lit neg_idx i fuel = some s' → SameCore s s' := by
  intro fuel
  induction fuel with
  | zero => intro s _ _ _ _ h; simp [propLoop] at h
  | succ n ih =>
    intro s neg_lit neg_idx i s' h
    rw [propLoop] at h
    by_cases hi : i < (s.watch_lists neg_idx).length
    · simp only [hi, dif_pos] at h
      generalize hc : s.clauses.get? ((s.watch_lists neg_idx).get ⟨i, hi⟩) = oc at h
      match oc with
      | none => exact absurd h (by simp)
      | some clause =>
        simp only at h
        generalize hf : clause.get? (s.watches ((s.watch_lists neg_idx).get ⟨i, hi⟩)).1 = ofi at h
        match ofi with
        | none => exact absurd h (by simp)
        | some lfirst =>
          simp only at h
          generalize ho : clause.get?
            (if lfirst = neg_lit then (s.watches ((s.watch_lists neg_idx).get ⟨i, hi⟩)).2
             else (s.watches ((s.watch_lists neg_idx).get ⟨i, hi⟩)).1) = oo at h
          match oo with
          | none => exact absurd h (by simp)
          | some lother =>
            simp only at h
            generalize hv : s.val lother = ov at h
            match ov with
            | none => exact absurd h (by simp)
            | some vother =>
              simp only at h
              by_cases hvt : vother = some true
              · simp only [hvt, if_pos rfl] at h
                exact ih _ _ _ _ _ h
              · rw [if_neg hvt] at h
                generalize hw : findNewWatch s clause
                    (if lfirst = neg_lit then (s.watches ((s.watch_lists neg_idx).get ⟨i, hi⟩)).1
                     else (s.watches ((s.watch_lists neg_idx).get ⟨i, hi⟩)).2)
                    (if lfirst = neg_lit then (s.watches ((s.watch_lists neg_idx).get ⟨i, hi⟩)).2
                     else (s.watches ((s.watch_lists neg_idx).get ⟨i, hi⟩)).1)
                    (List.range' 2 (clause.length - 2)) = ow at h
                match ow with
                | none => exact absurd h (by simp)
                | some none => exact ih _ _ _ _ _ h
                | some (some j) =>
                  simp only at h
                  generalize hj : clause.get? j = oj at h
                  match oj with
                  | none => exact absurd h (by simp)
                  | some lj =>
                    simp only at h
                    have h2 := ih _ _ _ _ _ h
                    exact sameCore_trans ⟨rfl, rfl, rfl, rfl, rfl, rfl, rfl⟩ h2
    · simp only [hi, dif_neg, not_false_iff, Option.some.injEq] at h
      subst h
      exact sameCore_refl s

/-- `propagate` on an already-assigned literal returns its current value and
the state completely unchanged (watch structures included). -/
theorem propagate_assigned (s : Solver) (lit : Int) (v : Bool)
    (h : s.val lit = some (some v)) : s.propagate lit = some (s, v) := by
  simp only [Solver.propagate, h]

/-- `propagate` on an unassigned literal, when it returns at all, has
returned `true` and changed exactly the assignment of `|lit|` and the trail
(plus watch bookkeeping). -/
theorem propagate_unassigned (s : Solver) (lit : Int) (s' : Solver) (b : Bool)
    (hv : s.val lit = some none) (h : s.propagate lit = some (s', b)) :
    b = true ∧
      s'.assignment = Function.update s.assignment lit.natAbs (some (decide (0 < lit))) ∧
      s'.history = s.history ++ [lit] ∧ s'.clauses = s.clauses ∧
      s'.num_vars = s.num_vars ∧ s'.positives = s.positives ∧
      s'.negatives = s.negatives ∧ s'.literal_polarity = s.literal_polarity := by
  have hle : lit.natAbs ≤ s.num_vars := by
    by_contra hgt
    rw [Solver.val, if_neg hgt] at hv
    exact absurd hv (by simp)
  have hnone : s.assignment lit.natAbs = none := by
    simp only [Solver.val, if_pos hle, Option.some.injEq] at hv
    rcases ha : s.assignment lit.natAbs with _ | w
    · rfl
    · rw [ha] at hv; simp at hv
  rw [Solver.propagate, hv] at h
  rw [Solver.assign_lit, if_pos hle, hnone] at h
  simp only at h
  generalize hpl : propLoop
      { s with
        assignment := Function.update s.assignment lit.natAbs (some (decide (0 < lit)))
        history := s.history ++ [lit] } (-lit) (lit_index (-lit)) 0
      (({ s with
        assignment := Function.update s.assignment lit.natAbs (some (decide (0 < lit)))
        history := s.history ++ [lit] }).watch_lists (lit_index (-lit))).length.succ = r at h
  match r with
  | none => exact absurd h (by simp)
  | some s2 =>
    simp only [Option.some.injEq, Prod.mk.injEq] at h
    obtain ⟨hs2, hb⟩ := h
    subst hs2
    obtain ⟨c1, c2, c3, c4, c5, c6, c7⟩ := propLoop_sameCore _ _ _ _ _ _ hpl
    exact ⟨hb.symm, c3, c4, c1, c2, c5, c6, c7⟩

/-- C1: the claim asserts `solve()` returns a boolean verdict (true iff
satisfiable, "no third outcome") for every clause set meeting the
construction precondition.  On the valid input `{[1],[-1]}` (n = 1) the code
instead panics: unit propagation of literal `1` walks the watch list of `-1`,
and for the unit clause `[-1]` reads `clause[1]`, which is out of bounds.
The model returns `none` (no boolean outcome) at every recursion fuel. -/
theorem C1_solve_panics_on_valid_input :
    (Solver.new [[1], [-1]] 1).solve = none ∧
      ∀ fuel : Nat, solveFuel fuel (Solver.new [[1], [-1]] 1) = none := by
  refine ⟨rfl, fun fuel => ?_⟩
  cases fuel with
  | zero => rfl
  | succ n => rfl

/-- C3: the claim (and the spec's own test) says `solve()` on `{[1],[-1]}`
returns false (UNSAT).  The code panics instead: the conflict is never
reported, because `bcp`'s first unit propagation indexes out of bounds on the
length-1 clause `[-1]`. -/
theorem C3_conflict_pair_panics_instead_of_unsat :
    (Solver.new [[1], [-1]] 1).bcp = none ∧
      verdict ((Solver.new [[1], [-1]] 1).solve) = none := by
  exact ⟨rfl, rfl⟩

/-- The state of the solver on input `{[1]}` with 2 variables after unit
propagation of literal `1`: variable 1 true, variable 2 unassigned, every
clause satisfied.  Used as counterexample state for claim C9. -/
def s9 : Solver :=
  let s := Solver.new [[1]] 2
  { s with assignment := Function.update s.assignment 1 (some true), history := [1] }

/-- C9 counterexample: in state `s9` (reachable: it is exactly the result of
propagating literal `1` from the initial state) variable 2 is unassigned,
yet `pick_variable` returns the sentinel `0`, not an unassigned variable —
contradicting the claim that the sentinel is returned only when every
variable is assigned. -/
theorem C9_counterexample_sentinel_with_unassigned_var :
    s9.num_vars = 2 ∧ s9.assignment 2 = none ∧ s9.pick_variable = some 0 ∧
      (Solver.new [[1]] 2).propagate 1 = some (s9, true) := by
  exact ⟨rfl, rfl, rfl, rfl⟩

/-- C10 counterexample: the claim says `propagate(lit)` on an unassigned
literal "assigns it and always returns true".  In the initial state of
`{[1],[-1]}` (n = 1), variable 1 is unassigned, but `propagate 1` panics
(out-of-bounds read on the unit clause `[-1]`) instead of returning true. -/
theorem C10_counterexample_propagate_panics :
    (Solver.new [[1], [-1]] 1).assignment 1 = none ∧
      (Solver.new [[1], [-1]] 1).propagate 1 = none := by
  exact ⟨rfl, rfl⟩

/-- C10 (amended): for an assigned literal, `propagate` returns the literal's
current truth value and leaves the entire state — assignment, trail, watch
pairs, watch lists — unchanged; for an unassigned literal, *whenever
`propagate` returns at all* (it can instead panic on a unit clause of the
opposite literal), it has assigned the literal, appended it to the trail,
and returned true. -/
theorem C10_propagate_assigned_and_unassigned_behavior :
    (∀ (s : Solver) (lit : Int) (v : Bool),
        s.val lit = some (some v) → s.propagate lit = some (s, v)) ∧
    (∀ (s : Solver) (lit : Int) (s' : Solver) (b : Bool),
        s.val lit = some none → s.propagate lit = some (s', b) →
        b = true ∧
          s'.assignment = Function.update s.assignment lit.natAbs (some (decide (0 < lit))) ∧
          s'.history = s.history ++ [lit]) := by
  constructor
  · exact propagate_assigned
  · intro s lit s' b hv h
    obtain ⟨h1, h2, h3, _⟩ := propagate_unassigned s lit s' b hv h
    exact ⟨h1, h2, h3⟩

/-- The state on input `{[1,2]}` (n = 2) with variable 1 already assigned
true; used to witness C10's assigned-literal case. -/
def sAssigned : Solver :=
  let s := Solver.new [[1, 2]] 2
  { s with assignment := Function.update s.assignment 1 (some true), history := [1] }

/-- Witness for C10: both parts applied at concrete inputs. -/
theorem C10_propagate_assigned_and_unassigned_behavior_witness :
    sAssigned.propagate 1 = some (sAssigned, true) ∧
      (((Solver.new [[1, 2]] 2).propagate 1).getD (sAssigned, true)).1.history =
        (Solver.new [[1, 2]] 2).history ++ [1] := by
  constructor
  · exact C10_propagate_assigned_and_unassigned_behavior.1 sAssigned 1 true rfl
  · exact (C10_propagate_assigned_and_unassigned_behavior.2 (Solver.new [[1, 2]] 2) 1
      (((Solver.new [[1, 2]] 2).propagate 1).getD (sAssigned, true)).1 true rfl rfl).2.2

/-- A clause containing a literal and its negation (at distinct positions,
guaranteed by `l ≠ 0`) is flagged by the preprocessor's tautology test. -/
theorem hasComplPair_of_mem {c : List Int} {l : Int}
    (hl : l ∈ c) (hneg : -l ∈ c) (hnz : l ≠ 0) : hasComplPair c = true := by
  induction c with
  | nil => exact absurd hl (List.not_mem_nil l)
  | cons a rest ih =>
    rw [hasComplPair, Bool.or_eq_true, List.any_eq_true]
    rcases List.mem_cons.mp hl with hla | hlr
    · subst hla
      have hnegr : -l ∈ rest := by
        rcases List.mem_cons.mp hneg with h1 | h2
        · exfalso; apply hnz; omega
        · exact h2
      exact Or.inl ⟨-l, hnegr, by simp⟩
    · rcases List.mem_cons.mp hneg with hna | hnr
      · refine Or.inl ⟨l, hlr, ?_⟩
        rw [← hna]
        simp
      · exact Or.inr (ih hlr hnr)

/-- C5: adding a clause `c` that contains both a literal and its negation
anywhere in the clause list produces the *same* solver state (the
preprocessor's `retain` drops `c` before anything else is computed), hence
the same `solve()` verdict. -/
theorem C5_tautology_irrelevance
    (cs1 cs2 : List (List Int)) (c : List Int) (l : Int) (n : Nat)
    (hl : l ∈ c) (hneg : -l ∈ c) (hnz : l ≠ 0) :
    Solver.new (cs1 ++ c :: cs2) n = Solver.new (cs1 ++ cs2) n ∧
      verdict ((Solver.new (cs1 ++ c :: cs2) n).solve) =
        verdict ((Solver.new (cs1 ++ cs2) n).solve) := by
  have hc : hasComplPair c = true := hasComplPair_of_mem hl hneg hnz
  have hfil : (cs1 ++ c :: cs2).filter (fun d => !hasComplPair d) =
      (cs1 ++ cs2).filter (fun d => !hasComplPair d) := by
    simp [List.filter_append, List.filter_cons, hc]
  have hstate : Solver.new (cs1 ++ c :: cs2) n = Solver.new (cs1 ++ cs2) n := by
    simp only [Solver.new, preprocess]
    rw [hfil]
  exact ⟨hstate, by rw [hstate]⟩

/-- Witness for C5 at `S = {[1]}`, `c = [1,-1]`, `n = 1`. -/
theorem C5_tautology_irrelevance_witness :
    Solver.new [[1, -1], [1]] 1 = Solver.new [[1]] 1 ∧
      verdict ((Solver.new [[1, -1], [1]] 1).solve) = verdict ((Solver.new [[1]] 1).solve) :=
  C5_tautology_irrelevance [] [[1]] [1, -1] 1 1 (by decide) (by decide) (by decide)

/-! ## Characterization of the `pick_variable` selection loop (claim C9) -/

theorem selectBest_snd_mono (s : Solver) (sc : Nat → Nat) :
    ∀ (vs : List Nat) (acc : Nat × Nat), acc.2 ≤ (selectBest s sc vs acc).2 := by
  intro vs
  induction vs with
  | nil => intro acc; exact le_refl _
  | cons v rest ih =>
    intro acc
    rw [selectBest]
    by_cases h : ((s.assignment v).isNone && decide (acc.2 < sc v)) = true
    · rw [if_pos h]
      have h2 : acc.2 < sc v := by
        simp only [Bool.and_eq_true, decide_eq_true_eq] at h
        exact h.2
      exact le_trans (le_of_lt h2) (ih (v, sc v))
    · rw [if_neg h]
      exact ih acc

theorem selectBest_dominates (s : Solver) (sc : Nat → Nat) :
    ∀ (vs : List Nat) (acc : Nat × Nat) (v : Nat), v ∈ vs →
      s.assignment v = none → sc v ≤ (selectBest s sc vs acc).2 := by
  intro vs
  induction vs with
  | nil => intro acc v hv; exact absurd hv (List.not_mem_nil v)
  | cons w rest ih =>
    intro acc v hv hnone
    rw [selectBest]
    by_cases h : ((s.assignment w).isNone && decide (acc.2 < sc w)) = true
    · rw [if_pos h]
      rcases List.mem_cons.mp hv with hvw | hvr
      · subst hvw
        exact selectBest_snd_mono s sc rest (v, sc v)
      · exact ih (w, sc w) v hvr hnone
    · rw [if_neg h]
      rcases List.mem_cons.mp hv with hvw | hvr
      · subst hvw
        have hle : sc v ≤ acc.2 := by
          simp only [Bool.and_eq_true, decide_eq_true_eq, Option.isNone_iff_eq_none] at h
          push_neg at h
          exact h hnone
        exact le_trans hle (selectBest_snd_mono s sc rest acc)
      · exact ih acc v hvr hnone

theorem selectBest_origin (s : Solver) (sc : Nat → Nat) :
    ∀ (vs : List Nat) (acc : Nat × Nat),
      selectBest s sc vs acc = acc ∨
        ((selectBest s sc vs acc).1 ∈ vs ∧
          s.assignment (selectBest s sc vs acc).1 = none ∧
          sc (selectBest s sc vs acc).1 = (selectBest s sc vs acc).2 ∧
          acc.2 < (selectBest s sc vs acc).2) := by
  intro vs
  induction vs with
  | nil => intro acc; exact Or.inl rfl
  | cons w rest ih =>
    intro acc
    rw [selectBest]
    by_cases h : ((s.assignment w).isNone && decide (acc.2 < sc w)) = true
    · rw [if_pos h]
      simp only [Bool.and_eq_true, decide_eq_true_eq, Option.isNone_iff_eq_none] at h
      rcases ih (w, sc w) with heq | ⟨hm, hn, hs, hlt⟩
      · rw [heq]
        exact Or.inr ⟨List.mem_cons_self w rest, h.1, rfl, h.2⟩
      · exact Or.inr ⟨List.mem_cons_of_mem w hm, hn, hs, lt_trans h.2 hlt⟩
    · rw [if_neg h]
      rcases ih acc with heq | ⟨hm, hn, hs, hlt⟩
      · exact Or.inl heq
      · exact Or.inr ⟨List.mem_cons_of_mem w hm, hn, hs, hlt⟩

theorem selectBest_first_max (s : Solver) (sc : Nat → Nat) :
    ∀ (vs : List Nat) (acc : Nat × Nat), vs.Pairwise (· < ·) →
      (∀ v ∈ vs, acc.1 < v) →
      ∀ v ∈ vs, s.assignment v = none → v < (selectBest s sc vs acc).1 →
        sc v < (selectBest s sc vs acc).2 := by
  intro vs
  induction vs with
  | nil => intro acc _ _ v hv; exact absurd hv (List.not_mem_nil v)
  | cons w rest ih =>
    intro acc hpair hgt v hv hnone hlt
    have hpair' := (List.pairwise_cons.mp hpair).2
    have hw := (List.pairwise_cons.mp hpair).1
    rw [selectBest] at hlt ⊢
    by_cases h : ((s.assignment w).isNone && decide (acc.2 < sc w)) = true
    · rw [if_pos h] at hlt ⊢
      rcases List.mem_cons.mp hv with hvw | hvr
      · subst hvw
        rcases selectBest_origin s sc rest (v, sc v) with heq | ⟨_, _, _, hlt2⟩
        · rw [heq] at hlt
          exact absurd hlt (lt_irrefl v)
        · exact hlt2
      · exact ih (w, sc w) hpair' (fun u hu => hw u hu) v hvr hnone hlt
    · rw [if_neg h] at hlt ⊢
      rcases List.mem_cons.mp hv with hvw | hvr
      · subst hvw
        have hle : sc v ≤ acc.2 := by
          simp only [Bool.and_eq_true, decide_eq_true_eq, Option.isNone_iff_eq_none] at h
          push_neg at h
          exact h hnone
        rcases selectBest_origin s sc rest acc with heq | ⟨_, _, _, hlt2⟩
        · rw [heq] at hlt
          exact absurd hlt (not_lt_of_lt (hgt v (List.mem_cons_self v rest)))
        · exact lt_of_le_of_lt hle hlt2
      · exact ih acc hpair' (fun u hu => hgt u (List.mem_cons_of_mem w hu)) v hvr hnone hlt

/-- C9 (amended): when the scoring pass completes (no panic), `pick_variable`
returns the sentinel `0` exactly when every unassigned variable has
unresolved-clause score 0 — in particular, but *not only*, when every
variable is assigned; and when it returns a nonzero variable, that variable
is unassigned with strictly positive score, no unassigned variable scores
higher, and every smaller unassigned variable scores strictly lower (lowest
id wins ties). -/
theorem C9_pick_variable_highest_positive_score (s : Solver) (sc : Nat → Nat)
    (hsc : computeScores s (fun _ => 0) s.clauses = some sc) :
    (s.pick_variable = some 0 ↔
      ∀ v, 1 ≤ v → v ≤ s.num_vars → s.assignment v = none → sc v = 0) ∧
    (∀ bv, s.pick_variable = some bv → bv ≠ 0 →
      1 ≤ bv ∧ bv ≤ s.num_vars ∧ s.assignment bv = none ∧ 0 < sc bv ∧
        (∀ v, 1 ≤ v → v ≤ s.num_vars → s.assignment v = none → sc v ≤ sc bv) ∧
        (∀ v, 1 ≤ v → v < bv → s.assignment v = none → sc v < sc bv)) := by
  have hpick : s.pick_variable =
      some (selectBest s sc (List.range' 1 s.num_vars) (0, 0)).1 := by
    rw [Solver.pick_variable, hsc]
  have hmem : ∀ v, v ∈ List.range' 1 s.num_vars ↔ 1 ≤ v ∧ v ≤ s.num_vars := by
    intro v
    rw [List.mem_range'_1]
    omega
  constructor
  · constructor
    · intro h0 v h1 h2 hnone
      rw [hpick, Option.some.injEq] at h0
      rcases selectBest_origin s sc (List.range' 1 s.num_vars) (0, 0) with heq | ⟨hm, _, _, _⟩
      · have hdom := selectBest_dominates s sc (List.range' 1 s.num_vars) (0, 0) v
          ((hmem v).mpr ⟨h1, h2⟩) hnone
        rw [heq] at hdom
        omega
      · rw [h0] at hm
        have := (hmem 0).mp hm
        omega
    · intro hall
      rw [hpick, Option.some.injEq]
      rcases selectBest_origin s sc (List.range' 1 s.num_vars) (0, 0) with heq | ⟨hm, hn, hs, hlt⟩
      · rw [heq]
      · have h12 := (hmem _).mp hm
        have := hall _ h12.1 h12.2 hn
        omega
  · intro bv hbv hne
    rw [hpick, Option.some.injEq] at hbv
    rcases selectBest_origin s sc (List.range' 1 s.num_vars) (0, 0) with heq | ⟨hm, hn, hs, hlt⟩
    · rw [heq] at hbv
      exact absurd hbv.symm hne
    · subst hbv
      have h12 := (hmem _).mp hm
      refine ⟨h12.1, h12.2, hn, by omega, ?_, ?_⟩
      · intro v h1 h2 hnone
        have hdom := selectBest_dominates s sc (List.range' 1 s.num_vars) (0, 0) v
          ((hmem v).mpr ⟨h1, h2⟩) hnone
        omega
      · intro v h1 hvlt hnone
        have hv2 : v ≤ s.num_vars := by omega
        have hfm := selectBest_first_max s sc (List.range' 1 s.num_vars) (0, 0)
          (List.pairwise_lt_range' 1 s.num_vars)
          (fun u hu => ((hmem u).mp hu).1) v ((hmem v).mpr ⟨h1, hv2⟩) hnone hvlt
        omega

/-- Witness for C9 (amended) at state `s9`: both scoring and selection run on
a concrete state; every clause is satisfied, all scores are 0, and the
sentinel is returned although variable 2 is unassigned. -/
theorem C9_pick_variable_highest_positive_score_witness :
    s9.pick_variable = some 0 :=
  ((C9_pick_variable_highest_positive_score s9 (fun _ => 0) rfl).1).mpr
    (fun _ _ _ _ => rfl)

/-! ## The trail invariant (claims C7, C8) -/

/-- The construction precondition on the stored clauses: nonzero literals
with magnitude at most `num_vars`. -/
def WfClauses (s : Solver) : Prop :=
  ∀ c ∈ s.clauses, ∀ l ∈ c, l ≠ 0 ∧ l.natAbs ≤ s.num_vars

/-- The trail discipline: every trail literal is a valid literal assigned
with matching polarity, no variable occurs twice on the trail, and every
assigned variable is on the trail. -/
def Inv (s : Solver) : Prop :=
  WfClauses s ∧
    (∀ l ∈ s.history,
      l ≠ 0 ∧ l.natAbs ≤ s.num_vars ∧ s.assignment l.natAbs = some (decide (0 < l))) ∧
    (s.history.map (·.natAbs)).Nodup ∧
    (∀ v : Nat, (s.assignment v).isSome → v ∈ s.history.map (·.natAbs))

/-- State evolution during one search activation: static fields unchanged,
the trail extended, and the assignment unchanged away from the variables of
the trail extension. -/
def Evolves (s t : Solver) : Prop :=
  t.clauses = s.clauses ∧ t.num_vars = s.num_vars ∧ t.positives = s.positives ∧
    t.negatives = s.negatives ∧ t.literal_polarity = s.literal_polarity ∧
    s.history <+: t.history ∧
    ∀ v : Nat, v ∉ (t.history.drop s.history.length).map (·.natAbs) →
      t.assignment v = s.assignment v

theorem evolves_refl (s : Solver) : Evolves s s :=
  ⟨rfl, rfl, rfl, rfl, rfl, List.prefix_rfl, fun _ _ => rfl⟩

theorem evolves_trans {s t u : Solver} (h1 : Evolves s t) (h2 : Evolves t u) :
    Evolves s u := by
  obtain ⟨a1, a2, a3, a4, a5, ⟨e1, he1⟩, ha⟩ := h1
  obtain ⟨b1, b2, b3, b4, b5, ⟨e2, he2⟩, hb⟩ := h2
  have hu : u.history = s.history ++ (e1 ++ e2) := by
    rw [← List.append_assoc, he1, he2]
  refine ⟨b1.trans a1, b2.trans a2, b3.trans a3, b4.trans a4, b5.trans a5,
    ⟨e1 ++ e2, hu.symm⟩, ?_⟩
  intro v hv
  rw [hu, List.drop_left] at hv
  simp only [List.map_append, List.mem_append] at hv
  push_neg at hv
  have hvt : v ∉ (t.history.drop s.history.length).map (·.natAbs) := by
    rw [← he1, List.drop_left]
    exact hv.1
  have hvu : v ∉ (u.history.drop t.history.length).map (·.natAbs) := by
    rw [← he2, List.drop_left]
    exact hv.2
  rw [hb v hvu, ha v hvt]

/-- `Evolves` transfers the invariant backwards along equal assignments. -/
theorem inv_of_evolves_closed {s t : Solver} (h : Evolves s t)
    (hh : t.history = s.history) (ha : ∀ v, t.assignment v = s.assignment v)
    (hi : Inv s) : Inv t := by
  obtain ⟨c1, c2, _, _, _, _, _⟩ := h
  obtain ⟨w, h1, h2, h3⟩ := hi
  refine ⟨?_, ?_, ?_, ?_⟩
  · intro c hc l hl
    rw [c1] at hc
    have := w c hc l hl
    omega
  · intro l hl
    rw [hh] at hl
    obtain ⟨p1, p2, p3⟩ := h1 l hl
    exact ⟨p1, by omega, by rw [ha]; exact p3⟩
  · rw [hh]; exact h2
  · intro v hv
    rw [ha] at hv
    rw [hh]
    exact h3 v hv

/-- Full behavior of the `backtrack` pop loop: it truncates the trail to
`saved_len` and clears exactly the popped variables, touching nothing
else. -/
theorem backtrackFuel_spec :
    ∀ (f : Nat) (t : Solver) (k : Nat), t.history.length ≤ f →
      (backtrackFuel f t k).clauses = t.clauses ∧
      (backtrackFuel f t k).num_vars = t.num_vars ∧
      (backtrackFuel f t k).positives = t.positives ∧
      (backtrackFuel f t k).negatives = t.negatives ∧
      (backtrackFuel f t k).literal_polarity = t.literal_polarity ∧
      (backtrackFuel f t k).watches = t.watches ∧
      (backtrackFuel f t k).watch_lists = t.watch_lists ∧
      (backtrackFuel f t k).history = t.history.take k ∧
      ∀ v : Nat, (backtrackFuel f t k).assignment v =
        if v ∈ (t.history.drop k).map (·.natAbs) then none else t.assignment v := by
  intro f
  induction f with
  | zero =>
    intro t k hf
    have h0 : t.history = [] := List.length_eq_zero.mp (Nat.le_zero.mp hf)
    rw [backtrackFuel]
    refine ⟨rfl, rfl, rfl, rfl, rfl, rfl, rfl, by rw [h0]; simp, ?_⟩
    intro v
    rw [h0]
    simp
  | succ n ih =>
    intro t k hf
    rw [backtrackFuel]
    by_cases hk : k < t.history.length
    · rw [if_pos hk]
      have hne : t.history ≠ [] := by
        intro h0
        rw [h0] at hk
        exact absurd hk (by simp)
      rw [List.getLast?_eq_getLast t.history hne]
      set lst := t.history.getLast hne with hlst
      set t' : Solver :=
        { t with
          history := t.history.dropLast
          assignment := Function.update t.assignment lst.natAbs none } with ht'
      have hlen' : t'.history.length ≤ n := by
        simp only [ht', List.length_dropLast]
        omega
      obtain ⟨g1, g2, g3, g4, g5, g6, g7, g8, g9⟩ := ih t' k hlen'
      have hsplit : t.history = t.history.dropLast ++ [lst] :=
        (List.dropLast_append_getLast hne).symm
      have htk : t.history.take k = t.history.dropLast.take k := by
        conv_lhs => rw [hsplit]
        rw [List.take_append_eq_append_take]
        have : k - t.history.dropLast.length = 0 := by
          simp only [List.length_dropLast]
          omega
        rw [this]
        simp
      have hdk : t.history.drop k = t.history.dropLast.drop k ++ [lst] := by
        conv_lhs => rw [hsplit]
        rw [List.drop_append_eq_append_drop]
        have : k - t.history.dropLast.length = 0 := by
          simp only [List.length_dropLast]
          omega
        rw [this]
        simp
      refine ⟨g1, g2, g3, g4, g5, g6, g7, ?_, ?_⟩
      · rw [g8]
        simp only [ht']
        exact htk.symm
      · intro v
        rw [g9 v]
        simp only [ht']
        rw [hdk, List.map_append]
        by_cases hv1 : v ∈ (t.history.dropLast.drop k).map (·.natAbs)
        · rw [if_pos hv1, if_pos (List.mem_append.mpr (Or.inl hv1))]
        · by_cases hv2 : v = lst.natAbs
          · rw [if_neg hv1, if_pos (List.mem_append.mpr (Or.inr (by simp [hv2])))]
            simp [Function.update, hv2]
          · have hni : ¬(v ∈ (t.history.dropLast.drop k).map (·.natAbs) ++
                [lst].map (·.natAbs)) := by
              simp only [List.mem_append]
              push_neg
              exact ⟨hv1, by simp [hv2]⟩
            rw [if_neg hv1, if_neg hni]
            simp [Function.update, hv2]
    · rw [if_neg hk]
      push_neg at hk
      refine ⟨rfl, rfl, rfl, rfl, rfl, rfl, rfl, by rw [List.take_of_length_le hk], ?_⟩
      intro v
      rw [List.drop_of_length_le hk]
      simp

/-- `backtrack` behavior, packaged. -/
theorem backtrack_spec (t : Solver) (k : Nat) :
    (t.backtrack k).clauses = t.clauses ∧
    (t.backtrack k).num_vars = t.num_vars ∧
    (t.backtrack k).positives = t.positives ∧
    (t.backtrack k).negatives = t.negatives ∧
    (t.backtrack k).literal_polarity = t.literal_polarity ∧
    (t.backtrack k).watches = t.watches ∧
    (t.backtrack k).watch_lists = t.watch_lists ∧
    (t.backtrack k).history = t.history.take k ∧
    ∀ v : Nat, (t.backtrack k).assignment v =
      if v ∈ (t.history.drop k).map (·.natAbs) then none else t.assignment v :=
  backtrackFuel_spec t.history.length t k (le_refl _)

/-- Rolling the trail back to its length at an earlier invariant state
restores that state's trail and assignment exactly. -/
theorem backtrack_restores {s t : Solver} (hs : Inv s) (ht : Inv t) (hev : Evolves s t) :
    (t.backtrack s.history.length).history = s.history ∧
    (∀ v : Nat, (t.backtrack s.history.length).assignment v = s.assignment v) ∧
    Inv (t.backtrack s.history.length) ∧ Evolves s (t.backtrack s.history.length) := by
  obtain ⟨hc, hn, hp, hq, hpol, ⟨e, he⟩, hav⟩ := hev
  obtain ⟨b1, b2, b3, b4, b5, b6, b7, b8, b9⟩ := backtrack_spec t s.history.length
  have hhist : (t.backtrack s.history.length).history = s.history := by
    rw [b8, ← he, List.take_left]
  have hdropv : (t.history.drop s.history.length).map (·.natAbs) = e.map (·.natAbs) := by
    rw [← he, List.drop_left]
  have hassign : ∀ v : Nat, (t.backtrack s.history.length).assignment v = s.assignment v := by
    intro v
    rw [b9 v, hdropv]
    by_cases hv : v ∈ e.map (·.natAbs)
    · rw [if_pos hv]
      have hnd := ht.2.2.1
      rw [← he, List.map_append, List.nodup_append] at hnd
      have hvs : v ∉ s.history.map (·.natAbs) := fun hvin => hnd.2.2 hvin hv
      rcases hsv : s.assignment v with _ | w
      · rfl
      · exact absurd (hs.2.2.2 v (by rw [hsv]; rfl)) hvs
    · rw [if_neg hv]
      exact hav v (by rw [hdropv]; exact hv)
  have hev' : Evolves s (t.backtrack s.history.length) := by
    refine ⟨b1.trans hc, b2.trans hn, b3.trans hp, b4.trans hq, b5.trans hpol, ?_, ?_⟩
    · rw [hhist]
    · intro v _
      exact hassign v
  exact ⟨hhist, hassign, inv_of_evolves_closed hev' hhist hassign hs, hev'⟩

/-- Extending the trail by a fresh, valid literal preserves the trail
invariant. -/
theorem inv_extend {s : Solver} {l : Int} (hi : Inv s) (hl : l ≠ 0)
    (hle : l.natAbs ≤ s.num_vars) (hnone : s.assignment l.natAbs = none)
    {s' : Solver} (hc : s'.clauses = s.clauses) (hn : s'.num_vars = s.num_vars)
    (ha : s'.assignment = Function.update s.assignment l.natAbs (some (decide (0 < l))))
    (hh : s'.history = s.history ++ [l]) : Inv s' := by
  obtain ⟨w, h1, h2, h3⟩ := hi
  have hfresh : l.natAbs ∉ s.history.map (·.natAbs) := by
    intro hmem
    obtain ⟨l', hl', habs⟩ := List.mem_map.mp hmem
    obtain ⟨_, _, hsome⟩ := h1 l' hl'
    rw [habs] at hsome
    rw [hsome] at hnone
    exact absurd hnone (by simp)
  refine ⟨?_, ?_, ?_, ?_⟩
  · intro c hcm lit hlit
    rw [hc] at hcm
    have := w c hcm lit hlit
    omega
  · intro l' hl'
    rw [hh] at hl'
    rcases List.mem_append.mp hl' with hold | hnew
    · obtain ⟨p1, p2, p3⟩ := h1 l' hold
      refine ⟨p1, by omega, ?_⟩
      rw [ha, Function.update]
      have hne : l'.natAbs ≠ l.natAbs := by
        intro heq
        exact hfresh (heq ▸ List.mem_map.mpr ⟨l', hold, rfl⟩)
      simp only [hne, dif_neg, not_false_iff]
      exact p3
    · rw [List.mem_singleton.mp hnew]
      refine ⟨hl, by omega, ?_⟩
      rw [ha, Function.update]
      simp
  · rw [hh, List.map_append]
    rw [List.nodup_append]
    refine ⟨h2, List.nodup_singleton _, ?_⟩
    intro a ha1 ha2
    rw [List.map_singleton, List.mem_singleton] at ha2
    exact hfresh (ha2 ▸ ha1)
  · intro v hv
    rw [hh, List.map_append, List.mem_append]
    by_cases hveq : v = l.natAbs
    · right
      rw [List.map_singleton, List.mem_singleton]
      exact hveq
    · left
      rw [ha, Function.update] at hv
      simp only [hveq, dif_neg, not_false_iff] at hv
      exact h3 v hv

/-- Extending the trail by one literal is an `Evolves` step. -/
theorem evolves_extend {s : Solver} {l : Int}
    {s' : Solver} (hc : s'.clauses = s.clauses) (hn : s'.num_vars = s.num_vars)
    (hp : s'.positives = s.positives) (hq : s'.negatives = s.negatives)
    (hpol : s'.literal_polarity = s.literal_polarity)
    (ha : s'.assignment = Function.update s.assignment l.natAbs (some (decide (0 < l))))
    (hh : s'.history = s.history ++ [l]) : Evolves s s' := by
  refine ⟨hc, hn, hp, hq, hpol, by rw [hh]; exact List.prefix_append _ _, ?_⟩
  intro v hv
  rw [hh, List.drop_left] at hv
  rw [List.map_singleton, List.mem_singleton] at hv
  rw [ha, Function.update]
  simp only [hv, dif_neg, not_false_iff]

/-- `assign_lit` preserves the invariant and is an `Evolves` step. -/
theorem assign_lit_inv {s : Solver} {l : Int} {s' : Solver} (hi : Inv s) (hl : l ≠ 0)
    (h : s.assign_lit l = some s') : Inv s' ∧ Evolves s s' := by
  rw [Solver.assign_lit] at h
  by_cases hle : l.natAbs ≤ s.num_vars
  · rw [if_pos hle] at h
    rcases hav : s.assignment l.natAbs with _ | w
    · rw [hav] at h
      simp only [Option.some.injEq] at h
      subst h
      exact ⟨inv_extend hi hl hle hav rfl rfl rfl rfl,
        evolves_extend rfl rfl rfl rfl rfl rfl rfl⟩
    · rw [hav] at h
      simp only [Option.some.injEq] at h
      subst h
      exact ⟨hi, evolves_refl s⟩
  · rw [if_neg hle] at h
    exact absurd h (by simp)

/-- `propagate` preserves the invariant and is an `Evolves` step. -/
theorem propagate_inv {s : Solver} {l : Int} {s' : Solver} {b : Bool} (hi : Inv s)
    (hl : l ≠ 0) (h : s.propagate l = some (s', b)) : Inv s' ∧ Evolves s s' := by
  rcases hv : s.val l with _ | ov
  · rw [Solver.propagate, hv] at h
    exact absurd h (by simp)
  · rcases ov with _ | w
    · have hle : l.natAbs ≤ s.num_vars := by
        by_contra hgt
        rw [Solver.val, if_neg hgt] at hv
        exact absurd hv (by simp)
      have hnone : s.assignment l.natAbs = none := by
        rw [Solver.val, if_pos hle] at hv
        rcases hav : s.assignment l.natAbs with _ | w
        · rfl
        · rw [hav] at hv
          simp at hv
      obtain ⟨_, ha, hh, hc, hn, hp, hq, hpol⟩ := propagate_unassigned s l s' b hv h
      exact ⟨inv_extend hi hl hle hnone hc hn ha hh,
        evolves_extend hc hn hp hq hpol ha hh⟩
    · rw [propagate_assigned s l w hv] at h
      simp only [Option.some.injEq, Prod.mk.injEq] at h
      rw [← h.1]
      exact ⟨hi, evolves_refl s⟩

/-- When the clause scan reports a unit (count 1) starting from count 0, the
reported literal is a literal of the scanned clause. -/
theorem scanClause_one_mem (s : Solver) :
    ∀ (ls : List Int) (cnt : Nat) (last last' : Int),
      scanClause s ls cnt last = some (1, last') →
      (cnt = 1 ∧ last' = last) ∨ last' ∈ ls := by
  intro ls
  induction ls with
  | nil =>
    intro cnt last last' h
    rw [scanClause] at h
    simp only [Option.some.injEq, Prod.mk.injEq] at h
    exact Or.inl ⟨h.1, h.2.symm⟩
  | cons l ls ih =>
    intro cnt last last' h
    rw [scanClause] at h
    rcases hv : s.val l with _ | ov
    · simp only [hv] at h
      exact absurd h (by simp)
    · rcases ov with _ | w
      · simp only [hv] at h
        by_cases hc : 1 < cnt + 1
        · rw [if_pos hc] at h
          simp only [Option.some.injEq, Prod.mk.injEq] at h
          omega
        · rw [if_neg hc] at h
          rcases ih (cnt + 1) l last' h with ⟨_, hlast⟩ | hmem
          · exact Or.inr (hlast ▸ List.mem_cons_self l ls)
          · exact Or.inr (List.mem_cons_of_mem l hmem)
      · rcases w with _ | _
        · simp only [hv] at h
          rcases ih cnt last last' h with hl | hmem
          · exact Or.inl hl
          · exact Or.inr (List.mem_cons_of_mem l hmem)
        · simp only [hv, Option.some.injEq, Prod.mk.injEq] at h
          omega

/-- Invariant-and-evolution property of a `bcp` pass result. -/
def PassOk (s : Solver) : PassResult → Prop
  | .panic => True
  | .conflict s' => Inv s' ∧ Evolves s s'
  | .done s' _ => Inv s' ∧ Evolves s s'

theorem passOk_compose {s t : Solver} {r : PassResult} (hev : Evolves s t)
    (h : PassOk t r) : PassOk s r := by
  cases r with
  | panic => trivial
  | conflict s' => exact ⟨h.1, evolves_trans hev h.2⟩
  | done s' c => exact ⟨h.1, evolves_trans hev h.2⟩

theorem bcpPass_inv :
    ∀ (idxs : List Nat) (s : Solver) (changed : Bool), Inv s →
      PassOk s (bcpPass s changed idxs) := by
  intro idxs
  induction idxs with
  | nil => intro s changed hi; exact ⟨hi, evolves_refl s⟩
  | cons idx idxs ih =>
    intro s changed hi
    rw [bcpPass]
    split
    · trivial
    · rename_i clause hg
      split
      · trivial
      · rename_i pr cnt last hscan
        split
        · exact ⟨hi, evolves_refl s⟩
        · rename_i hc0
          split
          · rename_i hc1
            split
            · trivial
            · rename_i hval
              split
              · trivial
              · rename_i s' hp
                have hmem : last ∈ clause := by
                  rcases scanClause_one_mem s clause 0 0 last (hc1 ▸ hscan) with ⟨h01, _⟩ | hm
                  · omega
                  · exact hm
                have hnz : last ≠ 0 :=
                  (hi.1 clause (List.get?_mem hg) last hmem).1
                have hpi := propagate_inv hi hnz hp
                exact passOk_compose hpi.2 (ih s' true hpi.1)
              · rename_i s' hp
                have hmem : last ∈ clause := by
                  rcases scanClause_one_mem s clause 0 0 last (hc1 ▸ hscan) with ⟨h01, _⟩ | hm
                  · omega
                  · exact hm
                have hnz : last ≠ 0 :=
                  (hi.1 clause (List.get?_mem hg) last hmem).1
                have hpi := propagate_inv hi hnz hp
                exact ⟨hpi.1, hpi.2⟩
            · rename_i w hval
              exact ih s changed hi
          · rename_i hc1
            exact ih s changed hi

theorem bcpLoop_inv :
    ∀ (fuel : Nat) (s : Solver), Inv s →
      ∀ (s' : Solver) (b : Bool), bcpLoop fuel s = some (s', b) → Inv s' ∧ Evolves s s' := by
  intro fuel
  induction fuel with
  | zero => intro s _ s' b h; exact absurd h (by rw [bcpLoop]; simp)
  | succ n ih =>
    intro s hi s' b h
    rw [bcpLoop] at h
    rcases hp : bcpPass s false (List.range s.clauses.length) with _ | t | ⟨t, c⟩
    · simp only [hp] at h
      exact absurd h (by simp)
    · simp only [hp, Option.some.injEq, Prod.mk.injEq] at h
      have hok := bcpPass_inv (List.range s.clauses.length) s false hi
      rw [hp] at hok
      rw [← h.1]
      exact hok
    · have hok := bcpPass_inv (List.range s.clauses.length) s false hi
      rw [hp] at hok
      rcases c with _ | _
      · simp only [hp, Bool.false_eq_true, if_false, Option.some.injEq,
          Prod.mk.injEq] at h
        rw [← h.1]
        exact hok
      · simp only [hp, if_true] at h
        have := ih t hok.1 s' b h
        exact ⟨this.1, evolves_trans hok.2 this.2⟩

/-- `bcp` preserves the trail invariant and only extends the trail. -/
theorem bcp_inv {s : Solver} (hi : Inv s) {s' : Solver} {b : Bool}
    (h : s.bcp = some (s', b)) : Inv s' ∧ Evolves s s' :=
  bcpLoop_inv (countUnassigned s + 1) s hi s' b h

/-- Invariant-and-evolution property of a pure-literal pass result. -/
def SumOk (s : Solver) : Solver ⊕ Solver → Prop
  | .inl s' => Inv s' ∧ Evolves s s'
  | .inr s' => Inv s' ∧ Evolves s s'

theorem sumOk_compose {s t : Solver} {r : Solver ⊕ Solver} (hev : Evolves s t)
    (h : SumOk t r) : SumOk s r := by
  cases r with
  | inl s' => exact ⟨h.1, evolves_trans hev h.2⟩
  | inr s' => exact ⟨h.1, evolves_trans hev h.2⟩

theorem pureLoop_inv :
    ∀ (vs : List Nat) (s : Solver), Inv s → (∀ v ∈ vs, v ≠ 0) →
      ∀ r, pureLoop s vs = some r → SumOk s r := by
  intro vs
  induction vs with
  | nil =>
    intro s hi _ r h
    rw [pureLoop] at h
    simp only [Option.some.injEq] at h
    rw [← h]
    exact ⟨hi, evolves_refl s⟩
  | cons v vs ih =>
    intro s hi hvz r h
    rw [pureLoop] at h
    by_cases hcond : ((s.assignment v).isNone && !(s.literal_polarity v == 0)) = true
    · rw [if_pos hcond] at h
      have hlz : (if 0 < s.literal_polarity v then (v : Int) else -(v : Int)) ≠ 0 := by
        have hv0 : v ≠ 0 := hvz v (List.mem_cons_self v vs)
        by_cases hpol : 0 < s.literal_polarity v
        · rw [if_pos hpol]
          simpa using hv0
        · rw [if_neg hpol]
          simpa using hv0
      rcases hp : s.propagate (if 0 < s.literal_polarity v then (v : Int) else -(v : Int))
        with _ | ⟨s1, b⟩
      · simp only [hp] at h
        exact absurd h (by simp)
      · have hpi := propagate_inv hi hlz hp
        rcases b with _ | _
        · simp only [hp, Option.some.injEq] at h
          rw [← h]
          exact ⟨hpi.1, hpi.2⟩
        · rcases ha : s1.assign_lit (if 0 < s.literal_polarity v then (v : Int) else -(v : Int))
            with _ | s2
          · simp only [hp, ha] at h
            exact absurd h (by simp)
          · simp only [hp, ha] at h
            have hai := assign_lit_inv hpi.1 hlz ha
            have hrest := ih s2 hai.1 (fun u hu => hvz u (List.mem_cons_of_mem v hu)) r h
            exact sumOk_compose (evolves_trans hpi.2 hai.2) hrest
    · rw [if_neg hcond] at h
      exact ih s hi (fun u hu => hvz u (List.mem_cons_of_mem v hu)) r h

/-- Master lemma for the search driver: each `solve` activation preserves the
trail invariant, only extends the trail net of its own rollbacks, and on
failure restores trail and assignment to their entry values exactly. -/
theorem solveFuel_inv :
    ∀ (fuel : Nat) (s : Solver), Inv s →
      ∀ (s' : Solver) (b : Bool), solveFuel fuel s = some (s', b) →
        Inv s' ∧ Evolves s s' ∧
          (b = false → s'.history = s.history ∧
            ∀ v : Nat, s'.assignment v = s.assignment v) := by
  intro fuel
  induction fuel with
  | zero => intro s _ s' b h; exact absurd h (by rw [solveFuel]; simp)
  | succ n ih =>
    intro s hi s' b h
    rw [solveFuel] at h
    rcases hpl : (if s.history.length = 0 then pureLoop s (List.range' 1 s.num_vars)
        else some (Sum.inr s)) with _ | r
    · simp only [hpl] at h
      exact absurd h (by simp)
    · have hsumok : SumOk s r := by
        by_cases hz : s.history.length = 0
        · rw [if_pos hz] at hpl
          exact pureLoop_inv (List.range' 1 s.num_vars) s hi
            (fun v hv => by
              have := List.mem_range'_1.mp hv
              omega) r hpl
        · rw [if_neg hz] at hpl
          simp only [Option.some.injEq] at hpl
          rw [← hpl]
          exact ⟨hi, evolves_refl s⟩
      rcases r with s1 | s1
      · simp only [hpl, Option.some.injEq, Prod.mk.injEq] at h
        obtain ⟨hi1, hev1⟩ := hsumok
        obtain ⟨hh, ha, hiB, hevB⟩ := backtrack_restores hi hi1 hev1
        rw [← h.1, ← h.2]
        exact ⟨hiB, hevB, fun _ => ⟨hh, ha⟩⟩
      · obtain ⟨hi1, hev1⟩ := hsumok
        rcases hbcp : s1.bcp with _ | ⟨s2, b2⟩
        · simp only [hpl, hbcp] at h
          exact absurd h (by simp)
        · obtain ⟨hi2, hev2⟩ := bcp_inv hi1 hbcp
          have hev02 : Evolves s s2 := evolves_trans hev1 hev2
          rcases b2 with _ | _
          · simp only [hpl, hbcp, Option.some.injEq, Prod.mk.injEq] at h
            obtain ⟨hh, ha, hiB, hevB⟩ := backtrack_restores hi hi2 hev02
            rw [← h.1, ← h.2]
            exact ⟨hiB, hevB, fun _ => ⟨hh, ha⟩⟩
          · rcases hpick : s2.pick_variable with _ | pv
            · simp only [hpl, hbcp, hpick] at h
              exact absurd h (by simp)
            · by_cases hpv : pv = 0
              · simp only [hpl, hbcp, hpick, hpv, if_true, Option.some.injEq,
                  Prod.mk.injEq] at h
                rw [← h.1, ← h.2]
                exact ⟨hi2, hev02, by simp⟩
              · simp only [hpl, hbcp, hpick, hpv, if_false] at h
                have hflz : ∀ fl : Int,
                    (fl = if decide (s2.negatives pv ≤ s2.positives pv) = true
                      then (pv : Int) else -(pv : Int)) → fl ≠ 0 ∧ -fl ≠ 0 := by
                  intro fl hfl
                  rcases hd : decide (s2.negatives pv ≤ s2.positives pv) with _ | _
                  · rw [hd] at hfl
                    simp only [Bool.false_eq_true, if_false] at hfl
                    constructor
                    · rw [hfl]; simpa using hpv
                    · rw [hfl]; simpa using hpv
                  · rw [hd] at hfl
                    simp only [if_true] at hfl
                    constructor
                    · rw [hfl]; simpa using hpv
                    · rw [hfl]; simpa using hpv
                obtain ⟨hfl1, hfl2⟩ := hflz _ rfl
                rcases hp3 : s2.propagate (if decide (s2.negatives pv ≤ s2.positives pv) = true
                    then (pv : Int) else -(pv : Int)) with _ | ⟨s3, b3⟩
                · simp only [hp3] at h
                  exact absurd h (by simp)
                · obtain ⟨hi3, hev3⟩ := propagate_inv hi2 hfl1 hp3
                  have hbranch : ∀ (s4 : Solver) (b4 : Bool),
                      (if b3 = true then solveFuel n s3 else some (s3, false)) =
                        some (s4, b4) → Inv s4 ∧ Evolves s2 s4 := by
                    intro s4 b4 hb
                    rcases b3 with _ | _
                    · simp only [Bool.false_eq_true, if_false, Option.some.injEq,
                        Prod.mk.injEq] at hb
                      rw [← hb.1]
                      exact ⟨hi3, hev3⟩
                    · rw [if_pos rfl] at hb
                      obtain ⟨hi4, hev4, _⟩ := ih s3 hi3 s4 b4 hb
                      exact ⟨hi4, evolves_trans hev3 hev4⟩
                  rcases hx : (if b3 = true then solveFuel n s3 else some (s3, false))
                      with _ | ⟨s4, b4⟩
                  · simp only [hp3, hx] at h
                    exact absurd h (by simp)
                  · obtain ⟨hi4, hev24⟩ := hbranch s4 b4 hx
                    rcases b4 with _ | _
                    · -- first branch failed: backtrack to the decision snapshot
                      simp only [hp3, hx] at h
                      obtain ⟨hh5, ha5, hi5, hev25⟩ := backtrack_restores hi2 hi4 hev24
                      rcases hp6 : (s4.backtrack s2.history.length).propagate
                          (-(if decide (s2.negatives pv ≤ s2.positives pv) = true
                            then (pv : Int) else -(pv : Int))) with _ | ⟨s6, b6⟩
                      · simp only [hp6] at h
                        exact absurd h (by simp)
                      · obtain ⟨hi6, hev6⟩ := propagate_inv hi5 hfl2 hp6
                        have hev26 : Evolves s2 s6 := evolves_trans hev25 hev6
                        have hbranch2 : ∀ (s7 : Solver) (b7 : Bool),
                            (if b6 = true then solveFuel n s6 else some (s6, false)) =
                              some (s7, b7) → Inv s7 ∧ Evolves s2 s7 := by
                          intro s7 b7 hb
                          rcases b6 with _ | _
                          · simp only [Bool.false_eq_true, if_false, Option.some.injEq,
                              Prod.mk.injEq] at hb
                            rw [← hb.1]
                            exact ⟨hi6, hev26⟩
                          · rw [if_pos rfl] at hb
                            obtain ⟨hi7, hev7, _⟩ := ih s6 hi6 s7 b7 hb
                            exact ⟨hi7, evolves_trans hev26 hev7⟩
                        rcases hy : (if b6 = true then solveFuel n s6 else some (s6, false))
                            with _ | ⟨s7, b7⟩
                        · simp only [hp6, hy] at h
                          exact absurd h (by simp)
                        · obtain ⟨hi7, hev27⟩ := hbranch2 s7 b7 hy
                          have hev07 : Evolves s s7 := evolves_trans hev02 hev27
                          rcases b7 with _ | _
                          · -- both branches failed: restore the entry state
                            simp only [hp6, hy, Option.some.injEq, Prod.mk.injEq] at h
                            obtain ⟨hhE, haE, hiE, hevE⟩ := backtrack_restores hi hi7 hev07
                            rw [← h.1, ← h.2]
                            exact ⟨hiE, hevE, fun _ => ⟨hhE, haE⟩⟩
                          · simp only [hp6, hy, Option.some.injEq, Prod.mk.injEq] at h
                            rw [← h.1, ← h.2]
                            exact ⟨hi7, hev07, by simp⟩
                    · -- first branch succeeded
                      simp only [hp3, hx, Option.some.injEq, Prod.mk.injEq] at h
                      rw [← h.1, ← h.2]
                      exact ⟨hi4, evolves_trans hev02 hev24, by simp⟩

theorem insertByLen_perm (c : List Int) :
    ∀ l : List (List Int), List.Perm (insertByLen c l) (c :: l) := by
  intro l
  induction l with
  | nil => exact List.Perm.refl _
  | cons d ds ih =>
    rw [insertByLen]
    by_cases hlen : d.length < c.length
    · rw [if_pos hlen]
      exact (ih.cons d).trans (List.Perm.swap c d ds)
    · rw [if_neg hlen]

theorem sortByLen_perm : ∀ l : List (List Int), List.Perm (sortByLen l) l := by
  intro l
  induction l with
  | nil => exact List.Perm.refl _
  | cons c cs ih =>
    rw [sortByLen]
    exact (insertByLen_perm c (sortByLen cs)).trans (ih.cons c)

/-- Membership in the preprocessed clause list comes from membership in the
input. -/
theorem mem_new_clauses {cs : List (List Int)} {n : Nat} {c : List Int}
    (h : c ∈ (Solver.new cs n).clauses) : c ∈ cs ∧ hasComplPair c = false := by
  have h2 : c ∈ (cs.filter (fun d => !hasComplPair d)) :=
    (sortByLen_perm _).mem_iff.mp h
  have h3 := List.mem_filter.mp h2
  exact ⟨h3.1, by simpa using h3.2⟩

/-- Conversely, every kept input clause appears in the preprocessed list. -/
theorem new_clauses_mem {cs : List (List Int)} {n : Nat} {c : List Int}
    (hc : c ∈ cs) (ht : hasComplPair c = false) : c ∈ (Solver.new cs n).clauses :=
  (sortByLen_perm _).mem_iff.mpr (List.mem_filter.mpr ⟨hc, by simp [ht]⟩)

/-- The freshly constructed solver satisfies the trail invariant. -/
theorem new_inv (cs : List (List Int)) (n : Nat)
    (hwf : ∀ c ∈ cs, ∀ l ∈ c, l ≠ 0 ∧ l.natAbs ≤ n) : Inv (Solver.new cs n) := by
  refine ⟨?_, ?_, ?_, ?_⟩
  · intro c hc l hl
    exact hwf c (mem_new_clauses hc).1 l hl
  · intro l hl
    exact absurd hl (List.not_mem_nil l)
  · exact List.nodup_nil
  · intro v hv
    exact absurd hv (by simp [Solver.new, preprocess])

/-- `backtrack` preserves the trail invariant (for any snapshot). -/
theorem backtrack_inv {s : Solver} (hi : Inv s) (k : Nat) : Inv (s.backtrack k) := by
  obtain ⟨hw, h1, h2, h3⟩ := hi
  obtain ⟨b1, b2, _, _, _, _, _, b8, b9⟩ := backtrack_spec s k
  have hsplit : s.history = s.history.take k ++ s.history.drop k :=
    (List.take_append_drop k s.history).symm
  have hnd : ((s.history.take k).map (·.natAbs)).Nodup ∧
      ((s.history.take k).map (·.natAbs)).Disjoint ((s.history.drop k).map (·.natAbs)) := by
    have := h2
    rw [hsplit, List.map_append, List.nodup_append] at this
    exact ⟨this.1, this.2.2⟩
  refine ⟨?_, ?_, ?_, ?_⟩
  · intro c hc l hl
    rw [b1] at hc
    have := hw c hc l hl
    omega
  · intro l hl
    rw [b8] at hl
    have hlfull : l ∈ s.history := (List.take_prefix k s.history).subset hl
    obtain ⟨p1, p2, p3⟩ := h1 l hlfull
    refine ⟨p1, by omega, ?_⟩
    rw [b9]
    have hnin : l.natAbs ∉ (s.history.drop k).map (·.natAbs) :=
      hnd.2 (List.mem_map.mpr ⟨l, hl, rfl⟩)
    rw [if_neg hnin]
    exact p3
  · rw [b8, List.map_take]
    exact h2.sublist (List.take_sublist k _)
  · intro v hv
    rw [b9] at hv
    by_cases hvd : v ∈ (s.history.drop k).map (·.natAbs)
    · rw [if_pos hvd] at hv
      exact absurd hv (by simp)
    · rw [if_neg hvd] at hv
      have hvfull := h3 v hv
      rw [b8]
      rw [hsplit, List.map_append, List.mem_append] at hvfull
      rcases hvfull with hin | hin
      · rw [List.map_take]
        rw [List.map_take] at hin
        exact hin
      · exact absurd hin hvd

/-- Under the invariant, the trail length equals the number of assigned
variables. -/
theorem inv_trail_length {s : Solver} (hi : Inv s) :
    s.history.length =
      (List.range' 1 s.num_vars).countP (fun v => (s.assignment v).isSome) := by
  obtain ⟨_, h1, h2, h3⟩ := hi
  rw [List.countP_eq_length_filter]
  have hperm : List.Perm (s.history.map (·.natAbs))
      ((List.range' 1 s.num_vars).filter (fun v => (s.assignment v).isSome)) := by
    rw [List.perm_ext_iff_of_nodup h2 ((List.nodup_range' 1 s.num_vars).filter _)]
    intro a
    constructor
    · intro ha
      obtain ⟨l, hl, hla⟩ := List.mem_map.mp ha
      obtain ⟨p1, p2, p3⟩ := h1 l hl
      refine List.mem_filter.mpr ⟨?_, ?_⟩
      · rw [List.mem_range'_1]
        omega
      · rw [← hla, p3]
        rfl
    · intro ha
      obtain ⟨_, hsome⟩ := List.mem_filter.mp ha
      exact h3 a hsome
  have := hperm.length_eq
  rw [List.length_map] at this
  exact this

/-- C8: reachable states satisfy the trail discipline: the invariant holds
initially and is preserved by `assign_lit`, `propagate`, `bcp`, `solve` and
`backtrack`; and under it, the trail length equals the count of assigned
variables and no variable occurs twice on the trail. -/
theorem C8_trail_length_equals_assigned_count :
    (∀ (cs : List (List Int)) (n : Nat),
        (∀ c ∈ cs, ∀ l ∈ c, l ≠ 0 ∧ l.natAbs ≤ n) → Inv (Solver.new cs n)) ∧
    (∀ (s : Solver) (l : Int) (s' : Solver), Inv s → l ≠ 0 →
        s.assign_lit l = some s' → Inv s') ∧
    (∀ (s : Solver) (l : Int) (s' : Solver) (b : Bool), Inv s → l ≠ 0 →
        s.propagate l = some (s', b) → Inv s') ∧
    (∀ (s s' : Solver) (b : Bool), Inv s → s.bcp = some (s', b) → Inv s') ∧
    (∀ (fuel : Nat) (s s' : Solver) (b : Bool), Inv s →
        solveFuel fuel s = some (s', b) → Inv s') ∧
    (∀ (s : Solver) (k : Nat), Inv s → Inv (s.backtrack k)) ∧
    (∀ s : Solver, Inv s →
        s.history.length =
          (List.range' 1 s.num_vars).countP (fun v => (s.assignment v).isSome) ∧
        (s.history.map (·.natAbs)).Nodup) := by
  refine ⟨new_inv, ?_, ?_, ?_, ?_, ?_, ?_⟩
  · intro s l s' hi hl h
    exact (assign_lit_inv hi hl h).1
  · intro s l s' b hi hl h
    exact (propagate_inv hi hl h).1
  · intro s s' b hi h
    exact (bcp_inv hi h).1
  · intro fuel s s' b hi h
    exact (solveFuel_inv fuel s hi s' b h).1
  · intro s k hi
    exact backtrack_inv hi k
  · intro s hi
    exact ⟨inv_trail_length hi, hi.2.2.1⟩

/-- Witness for C8: the invariant consequences at a concrete reachable
state (`s9`, reached from input `{[1]}` by one propagation). -/
theorem C8_trail_length_equals_assigned_count_witness :
    s9.history.length =
      (List.range' 1 s9.num_vars).countP (fun v => (s9.assignment v).isSome) ∧
    (s9.history.map (·.natAbs)).Nodup := by
  have hinit : Inv (Solver.new [[1]] 2) :=
    C8_trail_length_equals_assigned_count.1 [[1]] 2 (by decide)
  have hs9 : Inv s9 :=
    C8_trail_length_equals_assigned_count.2.2.1 (Solver.new [[1]] 2) 1 s9 true hinit
      (by decide) rfl
  exact C8_trail_length_equals_assigned_count.2.2.2.2.2.2 s9 hs9

/-- C7: whenever a `solve` activation (at any recursion fuel) returns false
from an invariant state, the trail and the assignment are restored to
exactly their values at entry to that activation. -/
theorem C7_failure_is_atomic (fuel : Nat) (s : Solver) (hi : Inv s) (s' : Solver)
    (h : solveFuel fuel s = some (s', false)) :
    s'.history = s.history ∧ ∀ v : Nat, s'.assignment v = s.assignment v :=
  (solveFuel_inv fuel s hi s' false h).2.2 rfl

/-- Witness for C7 on the UNSAT input `{[1,2],[-1,2],[1,-2],[-1,-2]}`
(n = 2): the search fails and the final state carries the entry (empty)
trail and assignment. -/
theorem C7_failure_is_atomic_witness :
    ((solveFuel 4 (Solver.new [[1, 2], [-1, 2], [1, -2], [-1, -2]] 2)).getD
        (Solver.new [[1, 2], [-1, 2], [1, -2], [-1, -2]] 2, true)).1.history =
      (Solver.new [[1, 2], [-1, 2], [1, -2], [-1, -2]] 2).history ∧
    ∀ v : Nat,
      ((solveFuel 4 (Solver.new [[1, 2], [-1, 2], [1, -2], [-1, -2]] 2)).getD
          (Solver.new [[1, 2], [-1, 2], [1, -2], [-1, -2]] 2, true)).1.assignment v =
        (Solver.new [[1, 2], [-1, 2], [1, -2], [-1, -2]] 2).assignment v :=
  C7_failure_is_atomic 4 (Solver.new [[1, 2], [-1, 2], [1, -2], [-1, -2]] 2)
    (new_inv [[1, 2], [-1, 2], [1, -2], [-1, -2]] 2 (by decide)) _ rfl

/-! ## Soundness of a SAT answer (claim C2) -/

/-- Truth of a literal under a total assignment of the variables. -/
def litTrue (f : Nat → Bool) (lit : Int) : Bool :=
  if 0 < lit then f lit.natAbs else !(f lit.natAbs)

/-- A clause flagged by the tautology test contains a literal together with
its negation. -/
theorem hasComplPair_exists {c : List Int} (h : hasComplPair c = true) :
    ∃ l : Int, l ∈ c ∧ -l ∈ c := by
  induction c with
  | nil => simp [hasComplPair] at h
  | cons a rest ih =>
    rw [hasComplPair, Bool.or_eq_true, List.any_eq_true] at h
    rcases h with ⟨x, hx, hax⟩ | hr
    · refine ⟨a, List.mem_cons_self a rest, ?_⟩
      have hax' : -a = x := by
        have : a = -x := by simpa using hax
        rw [this, neg_neg]
      rw [hax']
      exact List.mem_cons_of_mem a hx
    · obtain ⟨l, hl1, hl2⟩ := ih hr
      exact ⟨l, List.mem_cons_of_mem a hl1, List.mem_cons_of_mem a hl2⟩

/-- A nonzero result of the clause scan exhibits a true or an unassigned
literal. -/
theorem scanClause_cnt_origin (s : Solver) :
    ∀ (ls : List Int) (cnt0 : Nat) (last0 : Int) (cnt : Nat) (last : Int),
      scanClause s ls cnt0 last0 = some (cnt, last) →
      cnt = cnt0 ∨ (∃ l ∈ ls, s.val l = some (some true)) ∨
        (∃ l ∈ ls, s.val l = some none) := by
  intro ls
  induction ls with
  | nil =>
    intro cnt0 last0 cnt last h
    rw [scanClause] at h
    simp only [Option.some.injEq, Prod.mk.injEq] at h
    exact Or.inl h.1.symm
  | cons l ls ih =>
    intro cnt0 last0 cnt last h
    rw [scanClause] at h
    rcases hv : s.val l with _ | ov
    · simp only [hv] at h
      exact absurd h (by simp)
    · rcases ov with _ | w
      · simp only [hv] at h
        right; right
        exact ⟨l, List.mem_cons_self l ls, hv⟩
      · rcases w with _ | _
        · simp only [hv] at h
          rcases ih cnt0 last0 cnt last h with h1 | h2 | h3
          · exact Or.inl h1
          · exact Or.inr (Or.inl (by
              obtain ⟨u, hu1, hu2⟩ := h2
              exact ⟨u, List.mem_cons_of_mem l hu1, hu2⟩))
          · exact Or.inr (Or.inr (by
              obtain ⟨u, hu1, hu2⟩ := h3
              exact ⟨u, List.mem_cons_of_mem l hu1, hu2⟩))
        · simp only [hv] at h
          right; left
          exact ⟨l, List.mem_cons_self l ls, hv⟩

/-- A unit result of the clause scan reports an unassigned literal (unless
the unit count was inherited from the accumulator). -/
theorem scanClause_one_unassigned (s : Solver) :
    ∀ (ls : List Int) (cnt : Nat) (last last' : Int),
      scanClause s ls cnt last = some (1, last') →
      (cnt = 1 ∧ last' = last) ∨ s.val last' = some none := by
  intro ls
  induction ls with
  | nil =>
    intro cnt last last' h
    rw [scanClause] at h
    simp only [Option.some.injEq, Prod.mk.injEq] at h
    exact Or.inl ⟨h.1, h.2.symm⟩
  | cons l ls ih =>
    intro cnt last last' h
    rw [scanClause] at h
    rcases hv : s.val l with _ | ov
    · simp only [hv] at h
      exact absurd h (by simp)
    · rcases ov with _ | w
      · simp only [hv] at h
        by_cases hc : 1 < cnt + 1
        · rw [if_pos hc] at h
          simp only [Option.some.injEq, Prod.mk.injEq] at h
          omega
        · rw [if_neg hc] at h
          rcases ih (cnt + 1) l last' h with ⟨_, hlast⟩ | hu
          · exact Or.inr (hlast ▸ hv)
          · exact Or.inr hu
      · rcases w with _ | _
        · simp only [hv] at h
          exact ih cnt last last' h
        · simp only [hv, Option.some.injEq, Prod.mk.injEq] at h
          omega

/-- A satisfied verdict of the clause-satisfaction check exhibits a true
literal. -/
theorem clauseSat_true_exists (s : Solver) :
    ∀ ls : List Int, clauseSat s ls = some true → ∃ l ∈ ls, s.val l = some (some true) := by
  intro ls
  induction ls with
  | nil => intro h; rw [clauseSat] at h; exact absurd h (by simp)
  | cons l ls ih =>
    intro h
    rw [clauseSat] at h
    rcases hv : s.val l with _ | ov
    · simp only [hv] at h
      exact absurd h (by simp)
    · rcases ov with _ | w
      · simp only [hv] at h
        obtain ⟨u, hu1, hu2⟩ := ih h
        exact ⟨u, List.mem_cons_of_mem l hu1, hu2⟩
      · rcases w with _ | _
        · simp only [hv] at h
          obtain ⟨u, hu1, hu2⟩ := ih h
          exact ⟨u, List.mem_cons_of_mem l hu1, hu2⟩
        · exact ⟨l, List.mem_cons_self l ls, hv⟩

/-- Every clause reached by a successful scoring pass got a satisfaction
verdict. -/
theorem computeScores_clauseSat (s : Solver) :
    ∀ (cs : List (List Int)) (sc sc' : Nat → Nat), computeScores s sc cs = some sc' →
      ∀ c ∈ cs, ∃ w : Bool, clauseSat s c = some w := by
  intro cs
  induction cs with
  | nil => intro sc sc' _ c hc; exact absurd hc (List.not_mem_nil c)
  | cons d ds ih =>
    intro sc sc' h c hc
    rw [computeScores] at h
    rcases hs : clauseSat s d with _ | w
    · simp only [hs] at h
      exact absurd h (by simp)
    · rcases List.mem_cons.mp hc with hcd | hcr
      · exact ⟨w, hcd ▸ hs⟩
      · rcases w with _ | _
        · simp only [hs] at h
          rcases hsc2 : scoreClauseLits s sc d with _ | sc2
          · simp only [hsc2] at h
            exact absurd h (by simp)
          · simp only [hsc2] at h
            exact ih sc2 sc' h c hcr
        · simp only [hs] at h
          exact ih sc sc' h c hcr

theorem scoreClauseLits_mono (s : Solver) :
    ∀ (ls : List Int) (sc sc' : Nat → Nat), scoreClauseLits s sc ls = some sc' →
      ∀ v, sc v ≤ sc' v := by
  intro ls
  induction ls with
  | nil =>
    intro sc sc' h v
    rw [scoreClauseLits] at h
    simp only [Option.some.injEq] at h
    rw [← h]
  | cons l ls ih =>
    intro sc sc' h v
    rw [scoreClauseLits] at h
    by_cases hle : l.natAbs ≤ s.num_vars
    · rw [if_pos hle] at h
      rcases ha : s.assignment l.natAbs with _ | w
      · simp only [ha] at h
        have := ih _ sc' h v
        by_cases hv : v = l.natAbs
        · subst hv
          rw [Function.update_same] at this
          omega
        · rw [Function.update_noteq hv] at this
          exact this
      · simp only [ha] at h
        exact ih sc sc' h v
    · rw [if_neg hle] at h
      exact absurd h (by simp)

theorem scoreClauseLits_adds (s : Solver) :
    ∀ (ls : List Int) (sc sc' : Nat → Nat) (l : Int), l ∈ ls →
      s.assignment l.natAbs = none → scoreClauseLits s sc ls = some sc' →
      sc l.natAbs + 1 ≤ sc' l.natAbs := by
  intro ls
  induction ls with
  | nil => intro sc sc' l hl; exact absurd hl (List.not_mem_nil l)
  | cons x ls ih =>
    intro sc sc' l hl hnone h
    rw [scoreClauseLits] at h
    by_cases hle : x.natAbs ≤ s.num_vars
    · rw [if_pos hle] at h
      rcases List.mem_cons.mp hl with hlx | hlr
      · subst hlx
        rw [hnone] at h
        simp only at h
        have := scoreClauseLits_mono s ls _ sc' h l.natAbs
        rw [Function.update_same] at this
        omega
      · rcases ha : s.assignment x.natAbs with _ | w
        · simp only [ha] at h
          have := ih _ sc' l hlr hnone h
          by_cases hv : l.natAbs = x.natAbs
          · rw [hv, Function.update_same] at this
            rw [hv]
            omega
          · rw [Function.update_noteq hv] at this
            omega
        · simp only [ha] at h
          exact ih sc sc' l hlr hnone h
    · rw [if_neg hle] at h
      exact absurd h (by simp)

theorem computeScores_mono (s : Solver) :
    ∀ (cs : List (List Int)) (sc sc' : Nat → Nat), computeScores s sc cs = some sc' →
      ∀ v, sc v ≤ sc' v := by
  intro cs
  induction cs with
  | nil =>
    intro sc sc' h v
    rw [computeScores] at h
    simp only [Option.some.injEq] at h
    rw [← h]
  | cons d ds ih =>
    intro sc sc' h v
    rw [computeScores] at h
    rcases hs : clauseSat s d with _ | w
    · simp only [hs] at h
      exact absurd h (by simp)
    · rcases w with _ | _
      · simp only [hs] at h
        rcases hsc2 : scoreClauseLits s sc d with _ | sc2
        · simp only [hsc2] at h
          exact absurd h (by simp)
        · simp only [hsc2] at h
          exact le_trans (scoreClauseLits_mono s d sc sc2 hsc2 v) (ih sc2 sc' h v)
      · simp only [hs] at h
        exact ih sc sc' h v

/-- Any unassigned literal of an unsatisfied clause receives a strictly
positive score. -/
theorem computeScores_lower_bound (s : Solver) :
    ∀ (cs : List (List Int)) (sc sc' : Nat → Nat) (c : List Int) (l : Int),
      c ∈ cs → clauseSat s c = some false → l ∈ c → s.assignment l.natAbs = none →
      computeScores s sc cs = some sc' → 1 ≤ sc' l.natAbs := by
  intro cs
  induction cs with
  | nil => intro sc sc' c l hc; exact absurd hc (List.not_mem_nil c)
  | cons d ds ih =>
    intro sc sc' c l hc hsat hl hnone h
    rw [computeScores] at h
    rcases List.mem_cons.mp hc with hcd | hcr
    · subst hcd
      rw [hsat] at h
      rcases hsc2 : scoreClauseLits s sc c with _ | sc2
      · simp only [hsc2] at h
        exact absurd h (by simp)
      · simp only [hsc2] at h
        have h1 := scoreClauseLits_adds s c sc sc2 l hl hnone hsc2
        have h2 := computeScores_mono s ds sc2 sc' h l.natAbs
        omega
    · rcases hs : clauseSat s d with _ | w
      · simp only [hs] at h
        exact absurd h (by simp)
      · rcases w with _ | _
        · simp only [hs] at h
          rcases hsc2 : scoreClauseLits s sc d with _ | sc2
          · simp only [hsc2] at h
            exact absurd h (by simp)
          · simp only [hsc2] at h
            exact ih sc2 sc' c l hcr hsat hl hnone h
        · simp only [hs] at h
          exact ih sc sc' c l hcr hsat hl hnone h

/-- When `pick_variable` returns the sentinel, every unassigned variable in
range has score zero. -/
theorem pick_eq_zero_scores {s : Solver} {sc : Nat → Nat}
    (hsc : computeScores s (fun _ => 0) s.clauses = some sc)
    (hpick : s.pick_variable = some 0) :
    ∀ v, 1 ≤ v → v ≤ s.num_vars → s.assignment v = none → sc v = 0 := by
  intro v h1 h2 hnone
  have hpick2 : (selectBest s sc (List.range' 1 s.num_vars) (0, 0)).1 = 0 := by
    rw [Solver.pick_variable, hsc] at hpick
    simpa using hpick
  rcases selectBest_origin s sc (List.range' 1 s.num_vars) (0, 0) with heq | ⟨hm, _, _, _⟩
  · have hdom := selectBest_dominates s sc (List.range' 1 s.num_vars) (0, 0) v
      (by rw [List.mem_range'_1]; omega) hnone
    rw [heq] at hdom
    omega
  · rw [hpick2] at hm
    have := List.mem_range'_1.mp hm
    omega

/-- Unfolding `val` on an unassigned verdict. -/
theorem val_some_none {s : Solver} {l : Int} (h : s.val l = some none) :
    l.natAbs ≤ s.num_vars ∧ s.assignment l.natAbs = none := by
  by_cases hle : l.natAbs ≤ s.num_vars
  · refine ⟨hle, ?_⟩
    rw [Solver.val, if_pos hle] at h
    rcases ha : s.assignment l.natAbs with _ | w
    · rfl
    · rw [ha] at h
      simp at h
  · rw [Solver.val, if_neg hle] at h
    exact absurd h (by simp)

/-- A literal evaluated true is true under any total assignment extending
the solver's. -/
theorem val_true_litTrue {s : Solver} {l : Int} {f : Nat → Bool}
    (h : s.val l = some (some true))
    (hf : ∀ (v : Nat) (bv : Bool), s.assignment v = some bv → f v = bv) :
    litTrue f l = true := by
  by_cases hle : l.natAbs ≤ s.num_vars
  · rw [Solver.val, if_pos hle] at h
    rcases ha : s.assignment l.natAbs with _ | w
    · rw [ha] at h
      simp at h
    · rw [ha] at h
      simp only [Option.some.injEq] at h
      have hfv := hf l.natAbs w ha
      rw [litTrue]
      by_cases hpos : 0 < l
      · rw [if_pos hpos] at h ⊢
        rw [hfv, h]
      · rw [if_neg hpos] at h ⊢
        rw [hfv]
        rcases w with _ | _
        · rfl
        · simp at h
  · rw [Solver.val, if_neg hle] at h
    exact absurd h (by simp)

/-- A pass that started with `changed` set can only finish with it set. -/
theorem bcpPass_true_mono :
    ∀ (idxs : List Nat) (s : Solver) (s' : Solver) (ch : Bool),
      bcpPass s true idxs = .done s' ch → ch = true := by
  intro idxs
  induction idxs with
  | nil =>
    intro s s' ch h
    rw [bcpPass] at h
    cases h
    rfl
  | cons idx idxs ih =>
    intro s s' ch h
    rw [bcpPass] at h
    rcases hg : s.clauses.get? idx with _ | clause
    · simp only [hg] at h
      exact PassResult.noConfusion h
    · rcases hscan : scanClause s clause 0 0 with _ | ⟨cnt, last⟩
      · simp only [hg, hscan] at h
        exact PassResult.noConfusion h
      · simp only [hg, hscan] at h
        by_cases hc0 : cnt = 0
        · rw [if_pos hc0] at h
          cases h
        · rw [if_neg hc0] at h
          by_cases hc1 : cnt = 1
          · rw [if_pos hc1] at h
            rcases hval : s.val last with _ | ov
            · simp only [hval] at h
              exact PassResult.noConfusion h
            · rcases ov with _ | w
              · simp only [hval] at h
                rcases hp : s.propagate last with _ | ⟨s'', b⟩
                · simp only [hp] at h
                  exact PassResult.noConfusion h
                · rcases b with _ | _
                  · simp only [hp] at h
                    cases h
                  · simp only [hp] at h
                    exact ih s'' s' ch h
              · simp only [hval] at h
                exact ih s s' ch h
          · rw [if_neg hc1] at h
            exact ih s s' ch h

/-- A pass that finishes with `changed` clear did not touch the state and
certifies the fixpoint condition for every scanned clause: no conflict, and
no pending unit. -/
theorem bcpPass_fixpoint :
    ∀ (idxs : List Nat) (s : Solver) (changed : Bool) (s' : Solver),
      bcpPass s changed idxs = .done s' false →
      s' = s ∧
        ∀ idx ∈ idxs, ∃ clause, s.clauses.get? idx = some clause ∧
          ∃ (cnt : Nat) (last : Int), scanClause s clause 0 0 = some (cnt, last) ∧
            cnt ≠ 0 ∧ (cnt = 1 → ∃ w : Bool, s.val last = some (some w)) := by
  intro idxs
  induction idxs with
  | nil =>
    intro s changed s' h
    rw [bcpPass] at h
    cases h
    exact ⟨rfl, fun idx hidx => absurd hidx (List.not_mem_nil idx)⟩
  | cons idx idxs ih =>
    intro s changed s' h
    rw [bcpPass] at h
    rcases hg : s.clauses.get? idx with _ | clause
    · simp only [hg] at h
      exact PassResult.noConfusion h
    · rcases hscan : scanClause s clause 0 0 with _ | ⟨cnt, last⟩
      · simp only [hg, hscan] at h
        exact PassResult.noConfusion h
      · simp only [hg, hscan] at h
        by_cases hc0 : cnt = 0
        · rw [if_pos hc0] at h
          cases h
        · rw [if_neg hc0] at h
          by_cases hc1 : cnt = 1
          · rw [if_pos hc1] at h
            rcases hval : s.val last with _ | ov
            · simp only [hval] at h
              exact PassResult.noConfusion h
            · rcases ov with _ | w
              · simp only [hval] at h
                rcases hp : s.propagate last with _ | ⟨s'', b⟩
                · simp only [hp] at h
                  exact PassResult.noConfusion h
                · rcases b with _ | _
                  · simp only [hp] at h
                    cases h
                  · simp only [hp] at h
                    exact absurd (bcpPass_true_mono idxs s'' s' false h) (by simp)
              · simp only [hval] at h
                obtain ⟨heq, hrest⟩ := ih s changed s' h
                refine ⟨heq, ?_⟩
                intro j hj
                rcases List.mem_cons.mp hj with hji | hjr
                · exact ⟨clause, hji ▸ hg, cnt, last, hscan, hc0, fun _ => ⟨w, hval⟩⟩
                · exact hrest j hjr
          · rw [if_neg hc1] at h
            obtain ⟨heq, hrest⟩ := ih s changed s' h
            refine ⟨heq, ?_⟩
            intro j hj
            rcases List.mem_cons.mp hj with hji | hjr
            · exact ⟨clause, hji ▸ hg, cnt, last, hscan, hc0, fun hcc => absurd hcc hc1⟩
            · exact hrest j hjr

/-- The success state of the `bcp` fixpoint loop satisfies the fixpoint
condition for every clause. -/
theorem bcpLoop_fixpoint :
    ∀ (fuel : Nat) (s s' : Solver), bcpLoop fuel s = some (s', true) →
      ∀ idx ∈ List.range s'.clauses.length, ∃ clause, s'.clauses.get? idx = some clause ∧
        ∃ (cnt : Nat) (last : Int), scanClause s' clause 0 0 = some (cnt, last) ∧
          cnt ≠ 0 ∧ (cnt = 1 → ∃ w : Bool, s'.val last = some (some w)) := by
  intro fuel
  induction fuel with
  | zero => intro s s' h; exact absurd h (by rw [bcpLoop]; simp)
  | succ n ih =>
    intro s s' h
    rw [bcpLoop] at h
    rcases hp : bcpPass s false (List.range s.clauses.length) with _ | t | ⟨t, c⟩
    · simp only [hp] at h
      exact absurd h (by simp)
    · simp only [hp, Option.some.injEq, Prod.mk.injEq] at h
      exact absurd h.2 (by simp)
    · rcases c with _ | _
      · simp only [hp, Bool.false_eq_true, if_false, Option.some.injEq, Prod.mk.injEq] at h
        obtain ⟨heq, hfix⟩ := bcpPass_fixpoint (List.range s.clauses.length) s false t hp
        rw [← h.1, heq]
        exact hfix
      · simp only [hp, if_true] at h
        exact ih t s' h

/-- At a BCP fixpoint where `pick_variable` returns the sentinel, every
clause has a true literal. -/
theorem fixpoint_pick_zero_sat {s : Solver} (hi : Inv s)
    (hfix : ∀ idx ∈ List.range s.clauses.length, ∃ clause, s.clauses.get? idx = some clause ∧
        ∃ (cnt : Nat) (last : Int), scanClause s clause 0 0 = some (cnt, last) ∧
          cnt ≠ 0 ∧ (cnt = 1 → ∃ w : Bool, s.val last = some (some w)))
    (hpick : s.pick_variable = some 0) :
    ∀ c ∈ s.clauses, ∃ l ∈ c, s.val l = some (some true) := by
  intro c hc
  rcases hcs : computeScores s (fun _ => 0) s.clauses with _ | sc
  · rw [Solver.pick_variable, hcs] at hpick
    exact absurd hpick (by simp)
  · by_contra hno
    push_neg at hno
    obtain ⟨idx, hidx⟩ := List.mem_iff_get?.mp hc
    have hlt : idx < s.clauses.length := by
      obtain ⟨hl, _⟩ := List.get?_eq_some.mp hidx
      exact hl
    obtain ⟨clause, hcl, cnt, last, hscan, hcnt0, hcnt1⟩ :=
      hfix idx (List.mem_range.mpr hlt)
    have hceq : clause = c := by
      rw [hidx] at hcl
      exact (Option.some.injEq _ _ ▸ hcl).symm
    subst hceq
    have hcnt1' : cnt ≠ 1 := by
      intro h1
      subst h1
      rcases scanClause_one_unassigned s clause 0 0 last hscan with ⟨h01, _⟩ | hun
      · omega
      · obtain ⟨w, hw⟩ := hcnt1 rfl
        rw [hw] at hun
        simp at hun
    rcases scanClause_cnt_origin s clause 0 0 cnt last hscan with h0 | htrue | hunas
    · omega
    · obtain ⟨l, hl1, hl2⟩ := htrue
      exact hno l hl1 hl2
    · obtain ⟨l, hl1, hl2⟩ := hunas
      obtain ⟨hle, hnone⟩ := val_some_none hl2
      have hlz : l ≠ 0 := (hi.1 clause hc l hl1).1
      have hsat : clauseSat s clause = some false := by
        obtain ⟨w, hw⟩ := computeScores_clauseSat s s.clauses (fun _ => 0) sc hcs clause hc
        rcases w with _ | _
        · exact hw
        · obtain ⟨u, hu1, hu2⟩ := clauseSat_true_exists s clause hw
          exact absurd hu2 (hno u hu1)
      have hge := computeScores_lower_bound s s.clauses (fun _ => 0) sc clause l
        hc hsat hl1 hnone hcs
      have heq0 := pick_eq_zero_scores hcs hpick l.natAbs (by omega) hle hnone
      omega

/-- A SAT answer of the search leaves a state in which every stored clause
has a literal evaluating to true. -/
theorem solveFuel_sat :
    ∀ (fuel : Nat) (s : Solver), Inv s → ∀ s' : Solver,
      solveFuel fuel s = some (s', true) →
      s'.clauses = s.clauses ∧ Inv s' ∧
        ∀ c ∈ s'.clauses, ∃ l ∈ c, s'.val l = some (some true) := by
  intro fuel
  induction fuel with
  | zero => intro s _ s' h; exact absurd h (by rw [solveFuel]; simp)
  | succ n ih =>
    intro s hi s' h
    rw [solveFuel] at h
    rcases hpl : (if s.history.length = 0 then pureLoop s (List.range' 1 s.num_vars)
        else some (Sum.inr s)) with _ | r
    · simp only [hpl] at h
      exact absurd h (by simp)
    · have hsumok : SumOk s r := by
        by_cases hz : s.history.length = 0
        · rw [if_pos hz] at hpl
          exact pureLoop_inv (List.range' 1 s.num_vars) s hi
            (fun v hv => by
              have := List.mem_range'_1.mp hv
              omega) r hpl
        · rw [if_neg hz] at hpl
          simp only [Option.some.injEq] at hpl
          rw [← hpl]
          exact ⟨hi, evolves_refl s⟩
      rcases r with s1 | s1
      · simp only [hpl, Option.some.injEq, Prod.mk.injEq] at h
        exact absurd h.2 (by simp)
      · obtain ⟨hi1, hev1⟩ := hsumok
        rcases hbcp : s1.bcp with _ | ⟨s2, b2⟩
        · simp only [hpl, hbcp] at h
          exact absurd h (by simp)
        · obtain ⟨hi2, hev2⟩ := bcp_inv hi1 hbcp
          rcases b2 with _ | _
          · simp only [hpl, hbcp, Option.some.injEq, Prod.mk.injEq] at h
            exact absurd h.2 (by simp)
          · rcases hpick : s2.pick_variable with _ | pv
            · simp only [hpl, hbcp, hpick] at h
              exact absurd h (by simp)
            · by_cases hpv : pv = 0
              · simp only [hpl, hbcp, hpick, hpv, if_true, Option.some.injEq,
                  Prod.mk.injEq] at h
                rw [← h.1]
                have hfix := bcpLoop_fixpoint (countUnassigned s1 + 1) s1 s2 hbcp
                refine ⟨?_, hi2, fixpoint_pick_zero_sat hi2 hfix (hpv ▸ hpick)⟩
                rw [hev2.1, hev1.1]
              · simp only [hpl, hbcp, hpick, hpv, if_false] at h
                rcases hp3 : s2.propagate (if decide (s2.negatives pv ≤ s2.positives pv) = true
                    then (pv : Int) else -(pv : Int)) with _ | ⟨s3, b3⟩
                · simp only [hp3] at h
                  exact absurd h (by simp)
                · have hflz : (if decide (s2.negatives pv ≤ s2.positives pv) = true
                      then (pv : Int) else -(pv : Int)) ≠ 0 := by
                    by_cases hd : decide (s2.negatives pv ≤ s2.positives pv) = true
                    · rw [if_pos hd]
                      simpa using hpv
                    · rw [if_neg hd]
                      simpa using hpv
                  obtain ⟨hi3, hev3⟩ := propagate_inv hi2 hflz hp3
                  rcases hx : (if b3 = true then solveFuel n s3 else some (s3, false))
                      with _ | ⟨s4, b4⟩
                  · simp only [hp3, hx] at h
                    exact absurd h (by simp)
                  · rcases b4 with _ | _
                    · -- first branch failed; second branch decides
                      simp only [hp3, hx] at h
                      obtain ⟨hi4, hev24⟩ : Inv s4 ∧ Evolves s2 s4 := by
                        rcases b3 with _ | _
                        · simp only [Bool.false_eq_true, if_false, Option.some.injEq,
                            Prod.mk.injEq] at hx
                          rw [← hx.1]
                          exact ⟨hi3, hev3⟩
                        · rw [if_pos rfl] at hx
                          obtain ⟨g1, g2, _⟩ := solveFuel_inv n s3 hi3 s4 false hx
                          exact ⟨g1, evolves_trans hev3 g2⟩
                      obtain ⟨hh5, ha5, hi5, hev25⟩ := backtrack_restores hi2 hi4 hev24
                      rcases hp6 : (s4.backtrack s2.history.length).propagate
                          (-(if decide (s2.negatives pv ≤ s2.positives pv) = true
                            then (pv : Int) else -(pv : Int))) with _ | ⟨s6, b6⟩
                      · simp only [hp6] at h
                        exact absurd h (by simp)
                      · have hflz2 : (-(if decide (s2.negatives pv ≤ s2.positives pv) = true
                            then (pv : Int) else -(pv : Int))) ≠ 0 := by
                          simpa using hflz
                        obtain ⟨hi6, hev6⟩ := propagate_inv hi5 hflz2 hp6
                        rcases hy : (if b6 = true then solveFuel n s6 else some (s6, false))
                            with _ | ⟨s7, b7⟩
                        · simp only [hp6, hy] at h
                          exact absurd h (by simp)
                        · rcases b7 with _ | _
                          · simp only [hp6, hy, Option.some.injEq, Prod.mk.injEq] at h
                            exact absurd h.2 (by simp)
                          · simp only [hp6, hy, Option.some.injEq, Prod.mk.injEq] at h
                            rcases b6 with _ | _
                            · simp only [Bool.false_eq_true, if_false,
                                Option.some.injEq, Prod.mk.injEq] at hy
                              exact absurd hy.2 (by simp)
                            · rw [if_pos rfl] at hy
                              obtain ⟨g1, g2, g3⟩ := ih s6 hi6 s7 hy
                              rw [← h.1]
                              refine ⟨?_, g2, g3⟩
                              rw [g1, hev6.1, hev25.1, hev2.1, hev1.1]
                    · -- first branch succeeded
                      simp only [hp3, hx, Option.some.injEq, Prod.mk.injEq] at h
                      rcases b3 with _ | _
                      · simp only [Bool.false_eq_true, if_false, Option.some.injEq,
                          Prod.mk.injEq] at hx
                        exact absurd hx.2 (by simp)
                      · rw [if_pos rfl] at hx
                        obtain ⟨g1, g2, g3⟩ := ih s3 hi3 s4 hx
                        rw [← h.1]
                        refine ⟨?_, g2, g3⟩
                        rw [g1, hev3.1, hev2.1, hev1.1]

/-- C2: whenever `solve` (at any recursion fuel) answers SAT from a freshly
constructed solver on a valid input, every total assignment extending the
final partial assignment (unassigned variables read as either value)
satisfies every clause of the original input — including the tautological
clauses the preprocessor dropped. -/
theorem C2_sat_answer_satisfies_all_original_clauses
    (cs : List (List Int)) (n : Nat)
    (hwf : ∀ c ∈ cs, ∀ l ∈ c, l ≠ 0 ∧ l.natAbs ≤ n)
    (fuel : Nat) (s' : Solver) (h : solveFuel fuel (Solver.new cs n) = some (s', true))
    (f : Nat → Bool) (hf : ∀ (v : Nat) (bv : Bool), s'.assignment v = some bv → f v = bv) :
    ∀ c ∈ cs, ∃ l ∈ c, litTrue f l = true := by
  obtain ⟨hcl, _, hsat⟩ := solveFuel_sat fuel (Solver.new cs n) (new_inv cs n hwf) s' h
  intro c hc
  rcases ht : hasComplPair c with _ | _
  · have hmem : c ∈ s'.clauses := by
      rw [hcl]
      exact new_clauses_mem hc ht
    obtain ⟨l, hl1, hl2⟩ := hsat c hmem
    exact ⟨l, hl1, val_true_litTrue hl2 hf⟩
  · obtain ⟨l, hl1, hl2⟩ := hasComplPair_exists ht
    have hlz : l ≠ 0 := (hwf c hc l hl1).1
    by_cases hft : litTrue f l = true
    · exact ⟨l, hl1, hft⟩
    · refine ⟨-l, hl2, ?_⟩
      rw [litTrue] at hft ⊢
      by_cases hpos : 0 < l
      · rw [if_pos hpos] at hft
        rw [if_neg (by omega)]
        simp only [Int.natAbs_neg]
        simp only [Bool.not_eq_true] at hft
        rw [hft]
        rfl
      · rw [if_neg hpos] at hft
        rw [if_pos (by omega)]
        simp only [Int.natAbs_neg]
        simp only [Bool.not_eq_true] at hft
        rcases hfv : f l.natAbs with _ | _
        · rw [hfv] at hft
          simp at hft
        · rfl

/-- The total assignment used in the C2 witness. -/
def fWitness : Nat → Bool := fun v => if v = 1 then false else true

/-- Witness for C2 on the SAT instance `{[1,2,3],[-1,-2],[2,-3]}` (n = 3):
the solver answers SAT with variable 2 true and variable 1 false; the
extension `fWitness` satisfies all three original clauses. -/
theorem C2_sat_answer_satisfies_all_original_clauses_witness :
    (∃ l ∈ [(1 : Int), 2, 3], litTrue fWitness l = true) ∧
    (∃ l ∈ [(-1 : Int), -2], litTrue fWitness l = true) ∧
    (∃ l ∈ [(2 : Int), -3], litTrue fWitness l = true) := by
  suffices h : ∀ c ∈ [[1, 2, 3], [-1, -2], [2, -3]], ∃ l ∈ c, litTrue fWitness l = true by
    exact ⟨h _ (by simp), h _ (by simp), h _ (by simp)⟩
  have hrun : solveFuel 5 (Solver.new [[1, 2, 3], [-1, -2], [2, -3]] 3) =
      some (((solveFuel 5 (Solver.new [[1, 2, 3], [-1, -2], [2, -3]] 3)).getD
        (Solver.new [[1, 2, 3], [-1, -2], [2, -3]] 3, true)).1, true) := rfl
  refine C2_sat_answer_satisfies_all_original_clauses [[1, 2, 3], [-1, -2], [2, -3]] 3
    (by decide) 5 _ hrun fWitness ?_
  intro v bv hv
  have hass : (((solveFuel 5 (Solver.new [[1, 2, 3], [-1, -2], [2, -3]] 3)).getD
      (Solver.new [[1, 2, 3], [-1, -2], [2, -3]] 3, true)).1).assignment =
      Function.update (Function.update (fun _ => none) 2 (some true)) 1 (some false) := rfl
  rw [hass] at hv
  by_cases h1 : v = 1
  · subst h1
    rw [Function.update_same] at hv
    simp only [Option.some.injEq] at hv
    rw [← hv]
    rfl
  · rw [Function.update_noteq h1] at hv
    by_cases h2 : v = 2
    · subst h2
      rw [Function.update_same] at hv
      simp only [Option.some.injEq] at hv
      rw [← hv]
      rfl
    · rw [Function.update_noteq h2] at hv
      exact absurd hv (by simp)

/-! ## Correspondence with the watch-free variant (claim C6) -/

theorem sameCore_symm {s t : Solver} (h : SameCore s t) : SameCore t s := by
  obtain ⟨h1, h2, h3, h4, h5, h6, h7⟩ := h
  exact ⟨h1.symm, h2.symm, h3.symm, h4.symm, h5.symm, h6.symm, h7.symm⟩

theorem sameCore_val {s t : Solver} (h : SameCore s t) (l : Int) : t.val l = s.val l := by
  obtain ⟨_, h2, h3, _⟩ := h
  rw [Solver.val, Solver.val, h2, h3]

theorem sameCore_assign_lit {s t : Solver} (h : SameCore s t) (l : Int) {s1 : Solver}
    (ha : s.assign_lit l = some s1) :
    ∃ t1, t.assign_lit l = some t1 ∧ SameCore s1 t1 := by
  obtain ⟨h1, h2, h3, h4, h5, h6, h7⟩ := h
  rw [Solver.assign_lit] at ha ⊢
  rw [h2, h3, h4]
  by_cases hle : l.natAbs ≤ s.num_vars
  · rw [if_pos hle] at ha ⊢
    rcases hav : s.assignment l.natAbs with _ | w
    · simp only [hav, Option.some.injEq] at ha ⊢
      refine ⟨_, rfl, ?_⟩
      rw [← ha]
      exact ⟨h1, rfl, rfl, rfl, h5, h6, h7⟩
    · simp only [hav, Option.some.injEq] at ha ⊢
      refine ⟨t, rfl, ?_⟩
      rw [← ha]
      exact ⟨h1, h2, h3, h4, h5, h6, h7⟩
  · rw [if_neg hle] at ha
    exact absurd ha (by simp)

theorem sameCore_propagate {s t : Solver} (h : SameCore s t) (l : Int) {s1 : Solver}
    {b : Bool} (hp : s.propagate l = some (s1, b)) :
    ∃ t1, propagateNW t l = some (t1, b) ∧ SameCore s1 t1 := by
  rw [Solver.propagate] at hp
  rw [propagateNW, sameCore_val h]
  rcases hv : s.val l with _ | ov
  · rw [hv] at hp
    exact absurd hp (by simp)
  · rw [hv] at hp
    rcases ov with _ | w
    · simp only at hp
      rcases ha : s.assign_lit l with _ | sa
      · rw [ha] at hp
        exact absurd hp (by simp)
      · rw [ha] at hp
        simp only at hp
        obtain ⟨t1, ht1, hc1⟩ := sameCore_assign_lit h l ha
        rw [ht1]
        rcases hpl : propLoop sa (-l) (lit_index (-l)) 0
            ((sa.watch_lists (lit_index (-l))).length + 1) with _ | s2
        · rw [hpl] at hp
          exact absurd hp (by simp)
        · rw [hpl] at hp
          simp only [Option.some.injEq, Prod.mk.injEq] at hp
          refine ⟨t1, by rw [hp.2], ?_⟩
          rw [← hp.1]
          exact sameCore_trans (sameCore_symm (propLoop_sameCore _ _ _ _ _ _ hpl)) hc1
    · simp only [Option.some.injEq, Prod.mk.injEq] at hp
      refine ⟨t, by rw [hp.2], ?_⟩
      rw [← hp.1]
      exact h

theorem sameCore_scanClause {s t : Solver} (h : SameCore s t) :
    ∀ (ls : List Int) (cnt : Nat) (last : Int),
      scanClause t ls cnt last = scanClause s ls cnt last := by
  intro ls
  induction ls with
  | nil => intro cnt last; rw [scanClause, scanClause]
  | cons l ls ih =>
    intro cnt last
    rw [scanClause, scanClause, sameCore_val h]
    simp only [ih]

theorem sameCore_clauseSat {s t : Solver} (h : SameCore s t) :
    ∀ ls : List Int, clauseSat t ls = clauseSat s ls := by
  intro ls
  induction ls with
  | nil => rw [clauseSat, clauseSat]
  | cons l ls ih =>
    rw [clauseSat, clauseSat, sameCore_val h]
    simp only [ih]

theorem sameCore_scoreClauseLits {s t : Solver} (h : SameCore s t) :
    ∀ (ls : List Int) (sc : Nat → Nat),
      scoreClauseLits t sc ls = scoreClauseLits s sc ls := by
  intro ls
  induction ls with
  | nil => intro sc; rw [scoreClauseLits, scoreClauseLits]
  | cons l ls ih =>
    intro sc
    rw [scoreClauseLits, scoreClauseLits, h.2.1, h.2.2.1]
    simp only [ih]

theorem sameCore_computeScores {s t : Solver} (h : SameCore s t) :
    ∀ (cs : List (List Int)) (sc : Nat → Nat),
      computeScores t sc cs = computeScores s sc cs := by
  intro cs
  induction cs with
  | nil => intro sc; rw [computeScores, computeScores]
  | cons d ds ih =>
    intro sc
    rw [computeScores, computeScores, sameCore_clauseSat h, sameCore_scoreClauseLits h]
    simp only [ih]

theorem sameCore_selectBest {s t : Solver} (h : SameCore s t) :
    ∀ (sc : Nat → Nat) (vs : List Nat) (acc : Nat × Nat),
      selectBest t sc vs acc = selectBest s sc vs acc := by
  intro sc vs
  induction vs with
  | nil => intro acc; rw [selectBest, selectBest]
  | cons v vs ih =>
    intro acc
    rw [selectBest, selectBest, h.2.2.1]
    simp only [ih]

theorem sameCore_pick_variable {s t : Solver} (h : SameCore s t) :
    t.pick_variable = s.pick_variable := by
  rw [Solver.pick_variable, Solver.pick_variable, h.1, sameCore_computeScores h]
  simp only [sameCore_selectBest h, h.2.1]

theorem sameCore_countUnassigned {s t : Solver} (h : SameCore s t) :
    countUnassigned t = countUnassigned s := by
  rw [countUnassigned, countUnassigned, h.2.1, h.2.2.1]

theorem sameCore_backtrack {s t : Solver} (h : SameCore s t) (k : Nat) :
    SameCore (s.backtrack k) (t.backtrack k) := by
  obtain ⟨a1, a2, a3, a4, a5, a6, a7, a8, a9⟩ := backtrack_spec s k
  obtain ⟨b1, b2, b3, b4, b5, b6, b7, b8, b9⟩ := backtrack_spec t k
  refine ⟨?_, ?_, ?_, ?_, ?_, ?_, ?_⟩
  · rw [a1, b1, h.1]
  · rw [a2, b2, h.2.1]
  · funext v
    rw [a9 v, b9 v, h.2.2.1, h.2.2.2.1]
  · rw [a8, b8, h.2.2.2.1]
  · rw [a3, b3, h.2.2.2.2.1]
  · rw [a4, b4, h.2.2.2.2.2.1]
  · rw [a5, b5, h.2.2.2.2.2.2]

/-- Relation between an actual pass result and a variant pass result. -/
def ResultRel : PassResult → PassResult → Prop
  | .panic, _ => True
  | .conflict s1, r => ∃ t1, r = .conflict t1 ∧ SameCore s1 t1
  | .done s1 c, r => ∃ t1, r = .done t1 c ∧ SameCore s1 t1

theorem sameCore_bcpPass :
    ∀ (idxs : List Nat) (s t : Solver) (changed : Bool), SameCore s t →
      ResultRel (bcpPass s changed idxs) (bcpPassNW t changed idxs) := by
  intro idxs
  induction idxs with
  | nil =>
    intro s t changed h
    rw [bcpPass, bcpPassNW]
    exact ⟨t, rfl, h⟩
  | cons idx idxs ih =>
    intro s t changed h
    rw [bcpPass, bcpPassNW, h.1]
    simp only [sameCore_scanClause h, sameCore_val h]
    rcases hg : s.clauses.get? idx with _ | clause
    · simp only [hg]
      trivial
    · simp only [hg]
      rcases hscan : scanClause s clause 0 0 with _ | ⟨cnt, last⟩
      · simp only [hscan]
        trivial
      · simp only [hscan]
        by_cases hc0 : cnt = 0
        · rw [if_pos hc0, if_pos hc0]
          exact ⟨t, rfl, h⟩
        · rw [if_neg hc0, if_neg hc0]
          by_cases hc1 : cnt = 1
          · rw [if_pos hc1, if_pos hc1]
            rcases hval : s.val last with _ | ov
            · simp only [hval]
              trivial
            · rcases ov with _ | w
              · simp only [hval]
                rcases hp : s.propagate last with _ | ⟨s1, b⟩
                · simp only [hp]
                  trivial
                · obtain ⟨t1, ht1, hc⟩ := sameCore_propagate h last hp
                  simp only [hp, ht1]
                  rcases b with _ | _
                  · exact ⟨t1, rfl, hc⟩
                  · exact ih s1 t1 true hc
              · simp only [hval]
                exact ih s t changed h
          · rw [if_neg hc1, if_neg hc1]
            exact ih s t changed h

theorem sameCore_bcpLoop :
    ∀ (fuel : Nat) (s t : Solver), SameCore s t →
      ∀ (s1 : Solver) (b : Bool), bcpLoop fuel s = some (s1, b) →
        ∃ t1, bcpLoopNW fuel t = some (t1, b) ∧ SameCore s1 t1 := by
  intro fuel
  induction fuel with
  | zero => intro s t _ s1 b hb; exact absurd hb (by rw [bcpLoop]; simp)
  | succ n ih =>
    intro s t h s1 b hb
    rw [bcpLoop] at hb
    rw [bcpLoopNW]
    have hrel := sameCore_bcpPass (List.range s.clauses.length) s t false h
    rcases hp : bcpPass s false (List.range s.clauses.length) with _ | u | ⟨u, c⟩
    · simp only [hp] at hb
      exact absurd hb (by simp)
    · rw [hp] at hrel
      simp only [ResultRel] at hrel
      obtain ⟨t1, ht1, hcu⟩ := hrel
      rw [h.1, ht1]
      simp only [hp, Option.some.injEq, Prod.mk.injEq] at hb
      exact ⟨t1, by rw [hb.2], by rw [← hb.1]; exact hcu⟩
    · rw [hp] at hrel
      simp only [ResultRel] at hrel
      obtain ⟨t1, ht1, hcu⟩ := hrel
      rw [h.1, ht1]
      rcases c with _ | _
      · simp only [hp, Bool.false_eq_true, if_false, Option.some.injEq, Prod.mk.injEq] at hb
        obtain ⟨he1, he2⟩ := hb
        refine ⟨t1, ?_, by rw [← he1]; exact hcu⟩
        rw [← he2]
        rfl
      · simp only [hp, if_true] at hb
        exact ih u t1 hcu s1 b hb

theorem sameCore_bcp {s t : Solver} (h : SameCore s t) {s1 : Solver} {b : Bool}
    (hb : s.bcp = some (s1, b)) :
    ∃ t1, bcpNW t = some (t1, b) ∧ SameCore s1 t1 := by
  rw [Solver.bcp] at hb
  rw [bcpNW, sameCore_countUnassigned h]
  exact sameCore_bcpLoop (countUnassigned s + 1) s t h s1 b hb

/-- Relation between pure-pass results. -/
def SumRel : Solver ⊕ Solver → Solver ⊕ Solver → Prop
  | .inl s1, r => ∃ t1, r = .inl t1 ∧ SameCore s1 t1
  | .inr s1, r => ∃ t1, r = .inr t1 ∧ SameCore s1 t1

theorem sameCore_pureLoop :
    ∀ (vs : List Nat) (s t : Solver), SameCore s t →
      ∀ r, pureLoop s vs = some r →
        ∃ r', pureLoopNW t vs = some r' ∧ SumRel r r' := by
  intro vs
  induction vs with
  | nil =>
    intro s t h r hr
    rw [pureLoop] at hr
    simp only [Option.some.injEq] at hr
    rw [pureLoopNW]
    exact ⟨.inr t, rfl, by rw [← hr]; exact ⟨t, rfl, h⟩⟩
  | cons v vs ih =>
    intro s t h r hr
    rw [pureLoop] at hr
    rw [pureLoopNW, h.2.2.1, h.2.2.2.2.2.2]
    by_cases hcond : ((s.assignment v).isNone && !(s.literal_polarity v == 0)) = true
    · rw [if_pos hcond] at hr ⊢
      rcases hp : s.propagate (if 0 < s.literal_polarity v then (v : Int) else -(v : Int))
          with _ | ⟨s1, b⟩
      · simp only [hp] at hr
        exact absurd hr (by simp)
      · obtain ⟨t1, ht1, hc1⟩ := sameCore_propagate h _ hp
        simp only [ht1]
        rcases b with _ | _
        · simp only [hp, Option.some.injEq] at hr
          exact ⟨.inl t1, rfl, by rw [← hr]; exact ⟨t1, rfl, hc1⟩⟩
        · rcases ha : s1.assign_lit (if 0 < s.literal_polarity v then (v : Int) else -(v : Int))
              with _ | s2
          · simp only [hp, ha] at hr
            exact absurd hr (by simp)
          · simp only [hp, ha] at hr
            obtain ⟨t2, ht2, hc2⟩ := sameCore_assign_lit hc1 _ ha
            simp only [ht2]
            exact ih s2 t2 hc2 r hr
    · rw [if_neg hcond] at hr ⊢
      exact ih s t h r hr

/-- The watch-free variant tracks the actual solver step for step: whenever
the actual search returns a verdict, the variant returns the same verdict
from any state agreeing on everything but the watch structures. -/
theorem sameCore_solveFuel :
    ∀ (fuel : Nat) (s t : Solver), SameCore s t →
      ∀ (s1 : Solver) (b : Bool), solveFuel fuel s = some (s1, b) →
        ∃ t1, solveFuelNW fuel t = some (t1, b) ∧ SameCore s1 t1 := by
  intro fuel
  induction fuel with
  | zero => intro s t _ s1 b hb; exact absurd hb (by rw [solveFuel]; simp)
  | succ n ih =>
    intro s t h s1 b hb
    rw [solveFuel] at hb
    rw [solveFuelNW, h.2.2.2.1, h.2.1]
    rcases hpl : (if s.history.length = 0 then pureLoop s (List.range' 1 s.num_vars)
        else some (Sum.inr s)) with _ | r
    · simp only [hpl] at hb
      exact absurd hb (by simp)
    · have hstage : ∃ r', (if s.history.length = 0 then pureLoopNW t (List.range' 1 s.num_vars)
          else some (Sum.inr t)) = some r' ∧ SumRel r r' := by
        by_cases hz : s.history.length = 0
        · rw [if_pos hz] at hpl ⊢
          exact sameCore_pureLoop (List.range' 1 s.num_vars) s t h r hpl
        · rw [if_neg hz] at hpl ⊢
          simp only [Option.some.injEq] at hpl
          exact ⟨Sum.inr t, rfl, by rw [← hpl]; exact ⟨t, rfl, h⟩⟩
      obtain ⟨r', hr', hrel⟩ := hstage
      rcases r with s2 | s2
      · obtain ⟨t2, ht2, hc2⟩ := hrel
        subst ht2
        simp only [hpl, Option.some.injEq, Prod.mk.injEq] at hb
        simp only [hr']
        refine ⟨t2.backtrack s.history.length, ?_, ?_⟩
        · rw [← hb.2]
        · rw [← hb.1]
          exact sameCore_backtrack hc2 s.history.length
      · obtain ⟨t2, ht2, hc2⟩ := hrel
        subst ht2
        simp only [hr']
        rcases hbcp : s2.bcp with _ | ⟨s3, b2⟩
        · simp only [hpl, hbcp] at hb
          exact absurd hb (by simp)
        · obtain ⟨t3, ht3, hc3⟩ := sameCore_bcp hc2 hbcp
          simp only [ht3]
          rcases b2 with _ | _
          · simp only [hpl, hbcp, Option.some.injEq, Prod.mk.injEq] at hb
            refine ⟨t3.backtrack s.history.length, ?_, ?_⟩
            · rw [← hb.2]
            · rw [← hb.1]
              exact sameCore_backtrack hc3 s.history.length
          · rcases hpick : s3.pick_variable with _ | pv
            · simp only [hpl, hbcp, hpick] at hb
              exact absurd hb (by simp)
            · simp only [sameCore_pick_variable hc3, hpick]
              by_cases hpv : pv = 0
              · simp only [hpl, hbcp, hpick, hpv, if_true, Option.some.injEq,
                  Prod.mk.injEq] at hb
                subst hpv
                refine ⟨t3, by rw [← hb.2]; rfl, ?_⟩
                rw [← hb.1]
                exact hc3
              · simp only [hpl, hbcp, hpick, hpv, if_false] at hb
                simp only [if_neg hpv, hc3.2.2.2.2.1, hc3.2.2.2.2.2.1, hc3.2.2.2.1]
                rcases hp3 : s3.propagate
                    (if decide (s3.negatives pv ≤ s3.positives pv) = true
                     then (pv : Int) else -(pv : Int)) with _ | ⟨s4, b3⟩
                · simp only [hp3] at hb
                  exact absurd hb (by simp)
                · obtain ⟨t4, ht4, hc4⟩ := sameCore_propagate hc3 _ hp3
                  simp only [hp3] at hb
                  simp only [ht4]
                  rcases hx : (if b3 = true then solveFuel n s4 else some (s4, false))
                      with _ | ⟨s5, b4⟩
                  · simp only [hx] at hb
                    exact absurd hb (by simp)
                  · have hxs : ∃ t5, (if b3 = true then solveFuelNW n t4
                        else some (t4, false)) = some (t5, b4) ∧ SameCore s5 t5 := by
                      rcases b3 with _ | _
                      · simp only [Bool.false_eq_true, if_false, Option.some.injEq,
                          Prod.mk.injEq] at hx ⊢
                        exact ⟨t4, ⟨rfl, hx.2⟩, by rw [← hx.1]; exact hc4⟩
                      · rw [if_pos rfl] at hx ⊢
                        exact ih s4 t4 hc4 s5 b4 hx
                    obtain ⟨t5, ht5, hc5⟩ := hxs
                    simp only [hx] at hb
                    simp only [ht5]
                    rcases b4 with _ | _
                    · have hc5b := sameCore_backtrack hc5 s3.history.length
                      rcases hp6 : (s5.backtrack s3.history.length).propagate
                          (-(if decide (s3.negatives pv ≤ s3.positives pv) = true
                            then (pv : Int) else -(pv : Int))) with _ | ⟨s6, b6⟩
                      · simp only [hp6] at hb
                        exact absurd hb (by simp)
                      · obtain ⟨t6, ht6, hc6⟩ := sameCore_propagate hc5b _ hp6
                        simp only [hp6] at hb
                        simp only [ht6]
                        rcases hy : (if b6 = true then solveFuel n s6 else some (s6, false))
                            with _ | ⟨s7, b7⟩
                        · simp only [hy] at hb
                          exact absurd hb (by simp)
                        · have hys : ∃ t7, (if b6 = true then solveFuelNW n t6
                              else some (t6, false)) = some (t7, b7) ∧ SameCore s7 t7 := by
                            rcases b6 with _ | _
                            · simp only [Bool.false_eq_true, if_false, Option.some.injEq,
                                Prod.mk.injEq] at hy ⊢
                              exact ⟨t6, ⟨rfl, hy.2⟩, by rw [← hy.1]; exact hc6⟩
                            · rw [if_pos rfl] at hy ⊢
                              exact ih s6 t6 hc6 s7 b7 hy
                          obtain ⟨t7, ht7, hc7⟩ := hys
                          simp only [hy] at hb
                          simp only [ht7]
                          rcases b7 with _ | _
                          · simp only [Option.some.injEq, Prod.mk.injEq] at hb
                            refine ⟨t7.backtrack s.history.length, ?_, ?_⟩
                            · rw [← hb.2]
                            · rw [← hb.1]
                              exact sameCore_backtrack hc7 s.history.length
                          · simp only [Option.some.injEq, Prod.mk.injEq] at hb
                            refine ⟨t7, by rw [← hb.2], ?_⟩
                            rw [← hb.1]
                            exact hc7
                    · simp only [Option.some.injEq, Prod.mk.injEq] at hb
                      refine ⟨t5, by rw [← hb.2], ?_⟩
                      rw [← hb.1]
                      exact hc5

/-- C6 counterexample: on the valid input `{[1],[-1]}` (n = 1) the actual
implementation panics (no verdict at any recursion depth), while the variant
with all watch bookkeeping skipped returns UNSAT — the claim that the two
return the same `solve()` result on every valid input is false. -/
theorem C6_counterexample_actual_panics_variant_answers :
    (Solver.new [[1], [-1]] 1).solve = none ∧
      verdict (solveFuelNW ((Solver.new [[1], [-1]] 1).num_vars + 2)
        (Solver.new [[1], [-1]] 1)) = some false := by
  exact ⟨rfl, rfl⟩

/-- C6 (amended): the watch-pair and watch-list bookkeeping has no effect on
any verdict the solver actually returns: whenever the real implementation
returns a verdict (it can instead panic inside the watch maintenance), the
variant that skips all watch maintenance returns the same verdict with the
same assignment and trail. -/
theorem C6_watch_bookkeeping_does_not_affect_returned_verdicts
    (fuel : Nat) (s : Solver) (s' : Solver) (b : Bool)
    (h : solveFuel fuel s = some (s', b)) :
    ∃ t', solveFuelNW fuel s = some (t', b) ∧
      t'.assignment = s'.assignment ∧ t'.history = s'.history := by
  obtain ⟨t', ht, hc⟩ := sameCore_solveFuel fuel s s (sameCore_refl s) s' b h
  exact ⟨t', ht, by rw [hc.2.2.1, (sameCore_symm hc).2.2.1], hc.2.2.2.1⟩

/-- Witness for C6 on `{[1],[-1,2]}` (n = 2): the actual run answers SAT and
the variant answers SAT as well. -/
theorem C6_watch_bookkeeping_does_not_affect_returned_verdicts_witness :
    verdict (solveFuelNW 4 (Solver.new [[1], [-1, 2]] 2)) = some true := by
  obtain ⟨t', ht, _⟩ := C6_watch_bookkeeping_does_not_affect_returned_verdicts 4
    (Solver.new [[1], [-1, 2]] 2)
    ((solveFuel 4 (Solver.new [[1], [-1, 2]] 2)).getD (Solver.new [[1], [-1, 2]] 2, true)).1
    true rfl
  rw [verdict, ht]
  rfl

/-! ## The empty-clause claim (C4): safety of the pure-literal pre-pass -/

theorem swapRemove_mem {l : List Nat} {i e : Nat} (h : e ∈ swapRemove l i) : e ∈ l := by
  rw [swapRemove] at h
  rcases hl : l.getLast? with _ | last
  · rw [hl] at h
    exact h
  · rw [hl] at h
    have hsub := List.dropLast_sublist (l.set i last)
    have h1 : e ∈ l.set i last := hsub.subset h
    rcases List.mem_or_eq_of_mem_set h1 with h2 | h2
    · exact h2
    · rw [h2]
      have hne : l ≠ [] := by
        intro h0
        rw [h0] at hl
        exact absurd hl (by simp)
      rw [List.getLast?_eq_getLast l hne] at hl
      simp only [Option.some.injEq] at hl
      rw [← hl]
      exact List.getLast_mem hne

theorem swapRemove_length {l : List Nat} (hne : l ≠ []) (i : Nat) :
    (swapRemove l i).length = l.length - 1 := by
  rw [swapRemove]
  rcases hl : l.getLast? with _ | last
  · rw [List.getLast?_eq_getLast l hne] at hl
    exact absurd hl (by simp)
  · rw [List.length_dropLast, List.length_set]

theorem lit_index_inj {a b : Int} (h : lit_index a = lit_index b) : a = b := by
  rw [lit_index, lit_index] at h
  by_cases ha : 0 < a <;> by_cases hb : 0 < b
  · rw [if_pos ha, if_pos hb] at h
    omega
  · rw [if_pos ha, if_neg hb] at h
    omega
  · rw [if_neg ha, if_pos hb] at h
    omega
  · rw [if_neg ha, if_neg hb] at h
    omega

/-- `val` cannot panic on a literal within the declared variable range. -/
theorem val_some_of_le {s : Solver} {l : Int} (h : l.natAbs ≤ s.num_vars) :
    ∃ ov, s.val l = some ov := by
  rw [Solver.val, if_pos h]
  exact ⟨_, rfl⟩

theorem findNewWatch_no_panic {s : Solver} {c : List Int} {cur oth : Nat} :
    ∀ js : List Nat, (∀ j ∈ js, j < c.length) → (∀ l ∈ c, l.natAbs ≤ s.num_vars) →
      ∃ ow, findNewWatch s c cur oth js = some ow := by
  intro js
  induction js with
  | nil => intro _ _; exact ⟨none, rfl⟩
  | cons j js ih =>
    intro hlt hwf
    rw [findNewWatch]
    by_cases hco : j = cur ∨ j = oth
    · rw [if_pos hco]
      exact ih (fun u hu => hlt u (List.mem_cons_of_mem j hu)) hwf
    · rw [if_neg hco]
      have hj : j < c.length := hlt j (List.mem_cons_self j js)
      rcases hg : c.get? j with _ | lj
      · rw [List.get?_eq_none] at hg
        omega
      · simp only [hg]
        obtain ⟨ov, hov⟩ := val_some_of_le (hwf lj (List.get?_mem hg))
        simp only [hov]
        by_cases hf : ov = some false
        · rw [if_pos hf]
          exact ih (fun u hu => hlt u (List.mem_cons_of_mem j hu)) hwf
        · rw [if_neg hf]
          exact ⟨some j, rfl⟩

theorem findNewWatch_found {s : Solver} {c : List Int} {cur oth : Nat} :
    ∀ js : List Nat, ∀ j : Nat, findNewWatch s c cur oth js = some (some j) →
      j ∈ js ∧ ∃ lj, c.get? j = some lj ∧ ∃ vj, s.val lj = some vj ∧ vj ≠ some false := by
  intro js
  induction js with
  | nil =>
    intro j h
    rw [findNewWatch] at h
    simp at h
  | cons j0 js ih =>
    intro j h
    rw [findNewWatch] at h
    by_cases hco : j0 = cur ∨ j0 = oth
    · rw [if_pos hco] at h
      obtain ⟨h1, h2⟩ := ih j h
      exact ⟨List.mem_cons_of_mem j0 h1, h2⟩
    · rw [if_neg hco] at h
      rcases hg : c.get? j0 with _ | lj
      · simp only [hg] at h
        exact absurd h (by simp)
      · simp only [hg] at h
        rcases hv : s.val lj with _ | vj
        · simp only [hv] at h
          exact absurd h (by simp)
        · simp only [hv] at h
          by_cases hf : vj = some false
          · rw [if_pos hf] at h
            obtain ⟨h1, h2⟩ := ih j h
            exact ⟨List.mem_cons_of_mem j0 h1, h2⟩
          · rw [if_neg hf] at h
            simp only [Option.some.injEq] at h
            subst h
            exact ⟨List.mem_cons_self j0 js, lj, hg, vj, hv, hf⟩

/-- Well-formedness of the watch structures: every watch-list entry is an
index of a nonempty stored clause, a unit clause is watched only under the
key of its single literal, and watch positions of clauses of length ≥ 2 are
in bounds. -/
def WatchWf (s : Solver) : Prop :=
  (∀ k idx, idx ∈ s.watch_lists k → ∃ c, s.clauses.get? idx = some c ∧ c ≠ [] ∧
      (c.length = 1 → ∃ c0, c = [c0] ∧ k = lit_index c0)) ∧
  (∀ idx c, s.clauses.get? idx = some c → 2 ≤ c.length →
      (s.watches idx).1 < c.length ∧ (s.watches idx).2 < c.length)

/-- `WatchWf` depends only on the clause list and watch structures. -/
theorem watchWf_transfer {s t : Solver} (hc : t.clauses = s.clauses)
    (hw : t.watches = s.watches) (hl : t.watch_lists = s.watch_lists)
    (h : WatchWf s) : WatchWf t := by
  constructor
  · intro k idx hidx
    rw [hl] at hidx
    rw [hc]
    exact h.1 k idx hidx
  · intro idx c hidx hlen
    rw [hc] at hidx
    rw [hw]
    exact h.2 idx c hidx hlen

theorem pushWL_mem {wl : Nat → List Nat} {key idx k e : Nat}
    (h : e ∈ pushWL wl key idx k) : e ∈ wl k ∨ (e = idx ∧ k = key) := by
  rw [pushWL, Function.update] at h
  by_cases hk : k = key
  · subst hk
    simp only [dif_pos rfl] at h
    rcases List.mem_append.mp h with h1 | h1
    · exact Or.inl h1
    · exact Or.inr ⟨List.mem_singleton.mp h1, rfl⟩
  · simp only [hk, dif_neg, not_false_iff] at h
    exact Or.inl h

/-- Every entry of the constructed watch lists is the index of a nonempty
clause, with unit clauses listed only under their own literal's key. -/
theorem buildWL_mem :
    ∀ (cs : List (List Int)) (wl : Nat → List Nat) (idx0 k e : Nat),
      e ∈ buildWL wl idx0 cs k →
      e ∈ wl k ∨ ∃ (j : Nat) (c : List Int), cs.get? j = some c ∧ e = idx0 + j ∧ c ≠ [] ∧
        (c.length = 1 → ∃ c0, c = [c0] ∧ k = lit_index c0) := by
  intro cs
  induction cs with
  | nil => intro wl idx0 k e h; exact Or.inl h
  | cons c rest ih =>
    intro wl idx0 k e h
    rcases c with _ | ⟨l0, rest0⟩
    · rw [buildWL] at h
      rcases ih _ _ k e h with h1 | ⟨j, c', hg, he, hne, h1⟩
      · exact Or.inl h1
      · exact Or.inr ⟨j + 1, c', by simpa using hg, by omega, hne, h1⟩
    · rcases rest0 with _ | ⟨l1, rest1⟩
      · rw [buildWL] at h
        rcases ih _ _ k e h with h1 | ⟨j, c', hg, he, hne, h1⟩
        · rcases pushWL_mem h1 with h2 | ⟨h2, h2k⟩
          · exact Or.inl h2
          · exact Or.inr ⟨0, [l0], rfl, by omega, by simp, fun _ => ⟨l0, rfl, h2k⟩⟩
        · exact Or.inr ⟨j + 1, c', by simpa using hg, by omega, hne, h1⟩
      · rw [buildWL] at h
        rcases ih _ _ k e h with h1 | ⟨j, c', hg, he, hne, h1⟩
        · rcases pushWL_mem h1 with h2 | ⟨h2, _⟩
          · rcases pushWL_mem h2 with h3 | ⟨h3, _⟩
            · exact Or.inl h3
            · exact Or.inr ⟨0, l0 :: l1 :: rest1, rfl, by omega, by simp, by
                intro hlen
                simp at hlen⟩
          · exact Or.inr ⟨0, l0 :: l1 :: rest1, rfl, by omega, by simp, by
              intro hlen
              simp at hlen⟩
        · exact Or.inr ⟨j + 1, c', by simpa using hg, by omega, hne, h1⟩

/-- The freshly built solver has well-formed watch structures. -/
theorem new_watchWf (cs : List (List Int)) (n : Nat) : WatchWf (Solver.new cs n) := by
  constructor
  · intro k idx hidx
    have hb := buildWL_mem (sortByLen (cs.filter (fun c => !hasComplPair c)))
      (fun _ => []) 0 k idx hidx
    rcases hb with h1 | ⟨j, c, hg, he, hne, h1⟩
    · exact absurd h1 (List.not_mem_nil idx)
    · refine ⟨c, ?_, hne, h1⟩
      have : idx = j := by omega
      rw [this]
      exact hg
  · intro idx c _ hlen
    constructor
    · show (0 : Nat) < c.length
      omega
    · show (1 : Nat) < c.length
      omega

theorem countClausePol_p_le (v : Nat) :
    ∀ (ls : List Int) (p q : Nat → Nat), p v ≤ (countClausePol p q ls).1 v := by
  intro ls
  induction ls with
  | nil => intro p q; exact le_refl _
  | cons l ls ih =>
    intro p q
    rw [countClausePol]
    by_cases hl : 0 < l
    · rw [if_pos hl]
      refine le_trans ?_ (ih _ _)
      by_cases hv : v = l.natAbs
      · subst hv
        rw [Function.update_same]
        omega
      · rw [Function.update_noteq hv]
    · rw [if_neg hl]
      exact ih _ _

theorem countClausePol_q_le (v : Nat) :
    ∀ (ls : List Int) (p q : Nat → Nat), q v ≤ (countClausePol p q ls).2 v := by
  intro ls
  induction ls with
  | nil => intro p q; exact le_refl _
  | cons l ls ih =>
    intro p q
    rw [countClausePol]
    by_cases hl : 0 < l
    · rw [if_pos hl]
      exact ih _ _
    · rw [if_neg hl]
      refine le_trans ?_ (ih _ _)
      by_cases hv : v = l.natAbs
      · subst hv
        rw [Function.update_same]
        omega
      · rw [Function.update_noteq hv]

theorem countClausePol_q_adds {l : Int} (hneg : ¬0 < l) :
    ∀ (ls : List Int) (p q : Nat → Nat), l ∈ ls →
      q l.natAbs + 1 ≤ (countClausePol p q ls).2 l.natAbs := by
  intro ls
  induction ls with
  | nil => intro p q hl; exact absurd hl (List.not_mem_nil l)
  | cons x ls ih =>
    intro p q hl
    rw [countClausePol]
    rcases List.mem_cons.mp hl with hlx | hlr
    · subst hlx
      rw [if_neg hneg]
      refine le_trans ?_ (countClausePol_q_le l.natAbs ls _ _)
      rw [Function.update_same]
    · by_cases hx : 0 < x
      · rw [if_pos hx]
        exact ih _ _ hlr
      · rw [if_neg hx]
        refine le_trans ?_ (ih _ _ hlr)
        by_cases hv : l.natAbs = x.natAbs
        · rw [hv, Function.update_same]
          omega
        · rw [Function.update_noteq hv]

theorem countClausePol_p_adds {l : Int} (hpos : 0 < l) :
    ∀ (ls : List Int) (p q : Nat → Nat), l ∈ ls →
      p l.natAbs + 1 ≤ (countClausePol p q ls).1 l.natAbs := by
  intro ls
  induction ls with
  | nil => intro p q hl; exact absurd hl (List.not_mem_nil l)
  | cons x ls ih =>
    intro p q hl
    rw [countClausePol]
    rcases List.mem_cons.mp hl with hlx | hlr
    · subst hlx
      rw [if_pos hpos]
      refine le_trans ?_ (countClausePol_p_le l.natAbs ls _ _)
      rw [Function.update_same]
    · by_cases hx : 0 < x
      · rw [if_pos hx]
        refine le_trans ?_ (ih _ _ hlr)
        by_cases hv : l.natAbs = x.natAbs
        · rw [hv, Function.update_same]
          omega
        · rw [Function.update_noteq hv]
      · rw [if_neg hx]
        exact ih _ _ hlr

theorem countPols_p_le (v : Nat) :
    ∀ (cs : List (List Int)) (p q : Nat → Nat), p v ≤ (countPols p q cs).1 v := by
  intro cs
  induction cs with
  | nil => intro p q; exact le_refl _
  | cons c cs ih =>
    intro p q
    rw [countPols]
    exact le_trans (countClausePol_p_le v c p q) (ih _ _)

theorem countPols_q_le (v : Nat) :
    ∀ (cs : List (List Int)) (p q : Nat → Nat), q v ≤ (countPols p q cs).2 v := by
  intro cs
  induction cs with
  | nil => intro p q; exact le_refl _
  | cons c cs ih =>
    intro p q
    rw [countPols]
    exact le_trans (countClausePol_q_le v c p q) (ih _ _)

/-- A negative occurrence forces a positive negative-count. -/
theorem countPols_neg_occ {c : List Int} {l : Int} (hneg : ¬0 < l) (hl : l ∈ c) :
    ∀ (cs : List (List Int)) (p q : Nat → Nat), c ∈ cs →
      q l.natAbs + 1 ≤ (countPols p q cs).2 l.natAbs := by
  intro cs
  induction cs with
  | nil => intro p q hc; exact absurd hc (List.not_mem_nil c)
  | cons d ds ih =>
    intro p q hc
    rw [countPols]
    rcases List.mem_cons.mp hc with hcd | hcr
    · subst hcd
      exact le_trans (countClausePol_q_adds hneg c p q hl) (countPols_q_le _ ds _ _)
    · exact le_trans (by
        refine le_trans ?_ (Nat.add_le_add_right (countClausePol_q_le l.natAbs d p q) 1)
        exact le_refl _) (ih _ _ hcr)

/-- A positive occurrence forces a positive positive-count. -/
theorem countPols_pos_occ {c : List Int} {l : Int} (hpos : 0 < l) (hl : l ∈ c) :
    ∀ (cs : List (List Int)) (p q : Nat → Nat), c ∈ cs →
      p l.natAbs + 1 ≤ (countPols p q cs).1 l.natAbs := by
  intro cs
  induction cs with
  | nil => intro p q hc; exact absurd hc (List.not_mem_nil c)
  | cons d ds ih =>
    intro p q hc
    rw [countPols]
    rcases List.mem_cons.mp hc with hcd | hcr
    · subst hcd
      exact le_trans (countClausePol_p_adds hpos c p q hl) (countPols_p_le _ ds _ _)
    · exact le_trans (by
        refine le_trans ?_ (Nat.add_le_add_right (countClausePol_p_le l.natAbs d p q) 1)
        exact le_refl _) (ih _ _ hcr)

/-- The pure-literal classification is consistent with the stored clauses:
a variable marked pure-positive has no negative occurrence, one marked
pure-negative has no positive occurrence, and the marks take only the three
values 1, -1, 0. -/
def PureOk (s : Solver) : Prop :=
  ∀ v : Nat,
    (s.literal_polarity v = 1 → ∀ c ∈ s.clauses, ∀ l ∈ c, 0 < l ∨ l.natAbs ≠ v) ∧
    (s.literal_polarity v = -1 → ∀ c ∈ s.clauses, ∀ l ∈ c, ¬0 < l ∨ l.natAbs ≠ v) ∧
    (s.literal_polarity v = 0 ∨ s.literal_polarity v = 1 ∨ s.literal_polarity v = -1)

theorem pureOk_transfer {s t : Solver} (hc : t.clauses = s.clauses)
    (hp : t.literal_polarity = s.literal_polarity) (h : PureOk s) : PureOk t := by
  intro v
  rw [hp, hc]
  exact h v

theorem new_pureOk (cs : List (List Int)) (n : Nat) : PureOk (Solver.new cs n) := by
  intro v
  simp only [Solver.new, preprocess]
  refine ⟨?_, ?_, ?_⟩
  · intro hpol c hc l hl
    split_ifs at hpol with h1 h2 h3
    all_goals try omega
    by_contra hcon
    push_neg at hcon
    have hneg : ¬0 < l := by omega
    have := countPols_neg_occ hneg hl (sortByLen (cs.filter (fun d => !hasComplPair d)))
      (fun _ => 0) (fun _ => 0) hc
    rw [hcon.2] at this
    omega
  · intro hpol c hc l hl
    split_ifs at hpol with h1 h2 h3
    by_contra hcon
    push_neg at hcon
    have := countPols_pos_occ hcon.1 hl (sortByLen (cs.filter (fun d => !hasComplPair d)))
      (fun _ => 0) (fun _ => 0) hc
    rw [hcon.2] at this
    omega
  · split_ifs with h1 h2 h3
    all_goals omega

theorem sub_one_sub_lt {L F I : Nat} (h1 : I < L) (h2 : L - I < F + 1) :
    L - 1 - I < F := by
  omega

/-- On a state where the propagated literal's negation is genuinely false
and no unit clause is watched under the traversed key, the watch-list walk
cannot panic, terminates within its fuel, and preserves watch
well-formedness. -/
theorem propLoop_no_panic :
    ∀ (fuel : Nat) (s : Solver) (neg_lit : Int) (neg_idx i : Nat),
      WatchWf s → WfClauses s → s.val neg_lit = some (some false) →
      neg_idx = lit_index neg_lit →
      (∀ idx ∈ s.watch_lists neg_idx, ∀ c, s.clauses.get? idx = some c → c.length ≠ 1) →
      (s.watch_lists neg_idx).length - i < fuel →
      ∃ s', propLoop s neg_lit neg_idx i fuel = some s' ∧ WatchWf s' ∧ SameCore s s' := by
  intro fuel
  induction fuel with
  | zero => intro s nl ni i _ _ _ _ _ hf; omega
  | succ f ih =>
    intro s neg_lit neg_idx i hw hwf hval hni hno hfuel
    rw [propLoop]
    by_cases hi : i < (s.watch_lists neg_idx).length
    · rw [dif_pos hi]
      have hmem : (s.watch_lists neg_idx).get ⟨i, hi⟩ ∈ s.watch_lists neg_idx :=
        List.get_mem _ i hi
      obtain ⟨c, hc, hcne, _⟩ := hw.1 neg_idx _ hmem
      have hlen1 : c.length ≠ 1 := hno _ hmem c hc
      have hlen2 : 2 ≤ c.length := by
        rcases c with _ | ⟨x, rest⟩
        · exact absurd rfl hcne
        · rcases rest with _ | _
          · exact absurd rfl hlen1
          · simp only [List.length_cons]
            omega
      obtain ⟨hw1, hw2⟩ := hw.2 _ c hc hlen2
      simp only [hc]
      have hwfc : ∀ l ∈ c, l ≠ 0 ∧ l.natAbs ≤ s.num_vars :=
        hwf c (List.get?_mem hc)
      rcases hgf : c.get? (s.watches ((s.watch_lists neg_idx).get ⟨i, hi⟩)).1 with _ | lfirst
      · rw [List.get?_eq_none] at hgf
        omega
      · simp only [hgf]
        have hother : (if lfirst = neg_lit
            then (s.watches ((s.watch_lists neg_idx).get ⟨i, hi⟩)).2
            else (s.watches ((s.watch_lists neg_idx).get ⟨i, hi⟩)).1) < c.length := by
          by_cases hfn : lfirst = neg_lit
          · rw [if_pos hfn]
            exact hw2
          · rw [if_neg hfn]
            exact hw1
        rcases hgo : c.get? (if lfirst = neg_lit
            then (s.watches ((s.watch_lists neg_idx).get ⟨i, hi⟩)).2
            else (s.watches ((s.watch_lists neg_idx).get ⟨i, hi⟩)).1) with _ | lother
        · rw [List.get?_eq_none] at hgo
          omega
        · simp only [hgo]
          obtain ⟨vother, hvo⟩ := val_some_of_le (hwfc lother (List.get?_mem hgo)).2
          simp only [hvo]
          by_cases hvt : vother = some true
          · rw [if_pos hvt]
            exact ih s neg_lit neg_idx (i + 1) hw hwf hval hni hno (by omega)
          · rw [if_neg hvt]
            have hjr : ∀ j ∈ List.range' 2 (c.length - 2), j < c.length := by
              intro j hj
              have := List.mem_range'_1.mp hj
              omega
            obtain ⟨ow, how⟩ := @findNewWatch_no_panic s c
              (if lfirst = neg_lit then (s.watches ((s.watch_lists neg_idx).get ⟨i, hi⟩)).1
                else (s.watches ((s.watch_lists neg_idx).get ⟨i, hi⟩)).2)
              (if lfirst = neg_lit then (s.watches ((s.watch_lists neg_idx).get ⟨i, hi⟩)).2
                else (s.watches ((s.watch_lists neg_idx).get ⟨i, hi⟩)).1)
              (List.range' 2 (c.length - 2)) hjr (fun l hl => (hwfc l hl).2)
            rcases ow with _ | j
            · simp only [how]
              exact ih s neg_lit neg_idx (i + 1) hw hwf hval hni hno (by omega)
            · simp only [how]
              obtain ⟨hjmem, lj, hlj, vj, hvj, hvjf⟩ := findNewWatch_found _ j how
              simp only [hlj]
              have hjlt : j < c.length := hjr j hjmem
              have hljne : lj ≠ neg_lit := by
                intro heq
                rw [heq, hval] at hvj
                simp only [Option.some.injEq] at hvj
                exact hvjf hvj.symm
              have hnine : lit_index lj ≠ neg_idx := by
                intro heq
                rw [hni] at heq
                exact hljne (lit_index_inj heq)
              set ci := (s.watch_lists neg_idx).get ⟨i, hi⟩ with hcidef
              set s2 : Solver :=
                { s with
                  watches := Function.update s.watches ci
                    (if (if lfirst = neg_lit then (s.watches ci).1 else (s.watches ci).2) =
                        (s.watches ci).1
                      then (j, (s.watches ci).2) else ((s.watches ci).1, j))
                  watch_lists := Function.update
                    (Function.update s.watch_lists neg_idx
                      (swapRemove (s.watch_lists neg_idx) i)) (lit_index lj)
                    (Function.update s.watch_lists neg_idx
                      (swapRemove (s.watch_lists neg_idx) i) (lit_index lj) ++ [ci]) }
                with hs2def
              have hlistne : s.watch_lists neg_idx ≠ [] := by
                intro h0
                rw [h0] at hi
                exact absurd hi (by simp)
              have hs2neg : s2.watch_lists neg_idx = swapRemove (s.watch_lists neg_idx) i := by
                rw [hs2def]
                simp only
                rw [Function.update_noteq (Ne.symm hnine)]
                rw [Function.update_same]
              have hs2c : s2.clauses = s.clauses := by rw [hs2def]
              have hs2core : SameCore s s2 := by
                rw [hs2def]
                exact ⟨rfl, rfl, rfl, rfl, rfl, rfl, rfl⟩
              have hw2' : WatchWf s2 := by
                constructor
                · intro k idx hidx
                  rw [hs2c]
                  have hentry : idx ∈ s.watch_lists k ∨ idx = ci := by
                    by_cases hk2 : k = lit_index lj
                    · subst hk2
                      rw [hs2def] at hidx
                      simp only [Function.update_same] at hidx
                      rcases List.mem_append.mp hidx with h1 | h1
                      · rw [Function.update_noteq hnine] at h1
                        exact Or.inl h1
                      · exact Or.inr (List.mem_singleton.mp h1)
                    · rw [hs2def] at hidx
                      simp only at hidx
                      rw [Function.update_noteq (Ne.symm (fun h => hk2 h.symm))] at hidx
                      by_cases hk3 : k = neg_idx
                      · subst hk3
                        rw [Function.update_same] at hidx
                        exact Or.inl (swapRemove_mem hidx)
                      · rw [Function.update_noteq (Ne.symm (fun h => hk3 h.symm))] at hidx
                        exact Or.inl hidx
                  rcases hentry with h1 | h1
                  · exact hw.1 k idx h1
                  · subst h1
                    exact ⟨c, hc, hcne, fun h => absurd h hlen1⟩
                · intro idx c' hidx hlen'
                  rw [hs2c] at hidx
                  rw [hs2def]
                  simp only
                  by_cases hia : idx = ci
                  · subst hia
                    rw [Function.update_same]
                    have hcc : c' = c := by
                      rw [hc] at hidx
                      exact (Option.some.injEq _ _ ▸ hidx).symm
                    subst hcc
                    by_cases hcf : (if lfirst = neg_lit then (s.watches ci).1
                        else (s.watches ci).2) = (s.watches ci).1
                    · rw [if_pos hcf]
                      exact ⟨hjlt, hw2⟩
                    · rw [if_neg hcf]
                      exact ⟨hw1, hjlt⟩
                  · rw [Function.update_noteq hia]
                    exact hw.2 idx c' hidx hlen'
              have hval2 : s2.val neg_lit = some (some false) := by
                rw [sameCore_val hs2core, hval]
              have hno2 : ∀ idx ∈ s2.watch_lists neg_idx, ∀ c',
                  s2.clauses.get? idx = some c' → c'.length ≠ 1 := by
                intro idx hidx c' hgc
                rw [hs2neg] at hidx
                rw [hs2c] at hgc
                exact hno idx (swapRemove_mem hidx) c' hgc
              have hwf2 : WfClauses s2 := by
                intro c' hc' l hl
                rw [hs2c] at hc'
                have := hwf c' hc' l hl
                have hnv : s2.num_vars = s.num_vars := by rw [hs2def]
                omega
              have hfuel2 : (s2.watch_lists neg_idx).length - i < f := by
                rw [hs2neg, swapRemove_length hlistne]
                exact sub_one_sub_lt hi hfuel
              obtain ⟨s', h1, h2, h3⟩ := ih s2 neg_lit neg_idx i hw2' hwf2 hval2 hni hno2 hfuel2
              exact ⟨s', h1, h2, sameCore_trans hs2core h3⟩
    · rw [dif_neg hi]
      exact ⟨s, rfl, hw, sameCore_refl s⟩

/-- After storing the literal's polarity for its variable, the negated
literal evaluates to false. -/
theorem val_neg_false_of_assigned {t : Solver} {lit : Int}
    (hln : lit.natAbs ≤ t.num_vars) (hl0 : lit ≠ 0)
    (ha : t.assignment lit.natAbs = some (decide (0 < lit))) :
    t.val (-lit) = some (some false) := by
  rw [Solver.val]
  rw [if_pos (show (-lit).natAbs ≤ t.num_vars by rw [Int.natAbs_neg]; exact hln)]
  rw [Int.natAbs_neg, ha]
  by_cases hpos : 0 < lit
  · have h1 : ¬0 < -lit := by omega
    simp [hpos, h1]
  · have h1 : 0 < -lit := by omega
    simp [hpos, h1]

/-- `assign_lit` never panics on an in-range literal and touches only the
assignment and the trail. -/
theorem assign_lit_total {s : Solver} {lit : Int} (h : lit.natAbs ≤ s.num_vars) :
    ∃ s', s.assign_lit lit = some s' ∧ s'.clauses = s.clauses ∧
      s'.num_vars = s.num_vars ∧ s'.watches = s.watches ∧
      s'.watch_lists = s.watch_lists ∧ s'.literal_polarity = s.literal_polarity := by
  rw [Solver.assign_lit, if_pos h]
  rcases ha : s.assignment lit.natAbs with _ | w
  · simp only [ha]
    exact ⟨_, rfl, rfl, rfl, rfl, rfl, rfl⟩
  · simp only [ha]
    exact ⟨s, rfl, rfl, rfl, rfl, rfl, rfl⟩

/-- `propagate` cannot panic when the literal is in range and no surviving
unit clause is watched under the negated literal's key; the call leaves the
clause list, variable count and pure-literal marks unchanged and preserves
watch well-formedness. -/
theorem propagate_no_panic {s : Solver} {lit : Int}
    (hw : WatchWf s) (hwf : WfClauses s) (hl0 : lit ≠ 0)
    (hln : lit.natAbs ≤ s.num_vars)
    (hno : ∀ idx ∈ s.watch_lists (lit_index (-lit)), ∀ c,
        s.clauses.get? idx = some c → c.length ≠ 1) :
    ∃ s' b, s.propagate lit = some (s', b) ∧ WatchWf s' ∧ s'.clauses = s.clauses ∧
      s'.num_vars = s.num_vars ∧ s'.literal_polarity = s.literal_polarity := by
  rw [Solver.propagate]
  obtain ⟨ov, hov⟩ := val_some_of_le hln
  rcases ov with _ | b
  · simp only [hov]
    have hassign : s.assignment lit.natAbs = none := by
      rw [Solver.val, if_pos hln] at hov
      rcases ha : s.assignment lit.natAbs with _ | w
      · rfl
      · rw [ha] at hov
        simp at hov
    have hal : s.assign_lit lit = some
        { s with
          assignment := Function.update s.assignment lit.natAbs (some (decide (0 < lit)))
          history := s.history ++ [lit] } := by
      rw [Solver.assign_lit, if_pos hln, hassign]
    simp only [hal]
    set s1 : Solver :=
      { s with
        assignment := Function.update s.assignment lit.natAbs (some (decide (0 < lit)))
        history := s.history ++ [lit] } with hs1def
    have hw1 : WatchWf s1 := watchWf_transfer rfl rfl rfl hw
    have hwf1 : WfClauses s1 := fun c hc l hl => hwf c hc l hl
    have hval1 : s1.val (-lit) = some (some false) := by
      refine val_neg_false_of_assigned hln hl0 ?_
      show Function.update s.assignment lit.natAbs (some (decide (0 < lit))) lit.natAbs = _
      exact Function.update_same _ _ _
    have hno1 : ∀ idx ∈ s1.watch_lists (lit_index (-lit)), ∀ c,
        s1.clauses.get? idx = some c → c.length ≠ 1 := hno
    obtain ⟨s2, hrun, hw2, hcore⟩ := propLoop_no_panic
      ((s1.watch_lists (lit_index (-lit))).length + 1) s1 (-lit) (lit_index (-lit)) 0
      hw1 hwf1 hval1 rfl hno1 (by omega)
    simp only [hrun]
    exact ⟨s2, true, rfl, hw2, hcore.1, hcore.2.1, hcore.2.2.2.2.2.2⟩
  · simp only [hov]
    exact ⟨s, b, rfl, hw, rfl, rfl, rfl⟩

/-- The pure-literal pass of `solve` cannot panic: pure polarity of a
variable rules out any surviving unit clause of the opposite literal, so
every `propagate` it performs stays inside `propLoop_no_panic`'s guard.
Whatever branch it returns, the clause list is unchanged. -/
theorem pureLoop_no_panic :
    ∀ (vs : List Nat) (s : Solver), WatchWf s → WfClauses s → PureOk s →
      (∀ v ∈ vs, 1 ≤ v ∧ v ≤ s.num_vars) →
      ∃ r, pureLoop s vs = some r ∧
        ∀ s1, r = Sum.inr s1 → s1.clauses = s.clauses := by
  intro vs
  induction vs with
  | nil =>
    intro s _ _ _ _
    refine ⟨Sum.inr s, rfl, ?_⟩
    intro s1 h1
    cases h1
    rfl
  | cons v vs ih =>
    intro s hw hwf hpo hb
    rw [pureLoop]
    by_cases hcond : ((s.assignment v).isNone && !(s.literal_polarity v == 0)) = true
    · rw [if_pos hcond]
      have hpne : s.literal_polarity v ≠ 0 := by
        intro h0
        rw [h0] at hcond
        simp at hcond
      have hv1 : 1 ≤ v := (hb v (List.mem_cons_self v vs)).1
      have hvn : v ≤ s.num_vars := (hb v (List.mem_cons_self v vs)).2
      rcases (hpo v).2.2 with h0 | h1 | hm1
      · exact absurd h0 hpne
      · simp only [h1]
        rw [if_pos (by norm_num : (0 : Int) < 1)]
        have hl0 : (v : Int) ≠ 0 := by
          intro h
          omega
        have hln : (v : Int).natAbs ≤ s.num_vars := by
          omega
        have hno : ∀ idx ∈ s.watch_lists (lit_index (-(v : Int))), ∀ c,
            s.clauses.get? idx = some c → c.length ≠ 1 := by
          intro idx hidx c hgc hclen
          obtain ⟨c', hgc', _, hunit⟩ := hw.1 (lit_index (-(v : Int))) idx hidx
          rw [hgc] at hgc'
          have hcc : c = c' := Option.some_inj.mp hgc'
          obtain ⟨c0, hc0, hk⟩ := hunit (by rw [← hcc]; exact hclen)
          have hc0e : -(v : Int) = c0 := lit_index_inj hk
          have hcm : c ∈ s.clauses := List.get?_mem hgc
          have hcall := (hpo v).1 h1 c hcm c0
            (by rw [hcc, hc0]; exact List.mem_singleton.mpr rfl)
          rcases hcall with hgt | hne
          · rw [← hc0e] at hgt
            omega
          · rw [← hc0e] at hne
            omega
        obtain ⟨s', b, hprop, hw', hc', hn', hp'⟩ := propagate_no_panic hw hwf hl0 hln hno
        simp only [hprop]
        cases b
        · exact ⟨Sum.inl s', rfl, fun s1 h1 => Sum.noConfusion h1⟩
        · have hln' : (v : Int).natAbs ≤ s'.num_vars := by rw [hn']; exact hln
          obtain ⟨s'', hal, hc'', hn'', hwt'', hwl'', hp''⟩ := assign_lit_total hln'
          simp only [hal]
          have hw'' : WatchWf s'' := watchWf_transfer hc'' hwt'' hwl'' hw'
          have hwf'' : WfClauses s'' := by
            intro c hc l hl
            rw [hc'', hc'] at hc
            have h3 := hwf c hc l hl
            rw [hn'', hn']
            exact h3
          have hpo'' : PureOk s'' := pureOk_transfer (by rw [hc'', hc'])
            (by rw [hp'', hp']) hpo
          have hb'' : ∀ u ∈ vs, 1 ≤ u ∧ u ≤ s''.num_vars := by
            intro u hu
            have h2 := hb u (List.mem_cons_of_mem v hu)
            rw [hn'', hn']
            exact h2
          obtain ⟨r, hrec, hrc⟩ := ih s'' hw'' hwf'' hpo'' hb''
          refine ⟨r, hrec, ?_⟩
          intro s1 hr1
          rw [hrc s1 hr1, hc'', hc']
      · simp only [hm1]
        rw [if_neg (by norm_num : ¬(0 : Int) < -1)]
        have hl0 : -(v : Int) ≠ 0 := by
          intro h
          omega
        have hln : (-(v : Int)).natAbs ≤ s.num_vars := by
          omega
        have hno : ∀ idx ∈ s.watch_lists (lit_index (-(-(v : Int)))), ∀ c,
            s.clauses.get? idx = some c → c.length ≠ 1 := by
          rw [neg_neg]
          intro idx hidx c hgc hclen
          obtain ⟨c', hgc', _, hunit⟩ := hw.1 (lit_index ((v : Int))) idx hidx
          rw [hgc] at hgc'
          have hcc : c = c' := Option.some_inj.mp hgc'
          obtain ⟨c0, hc0, hk⟩ := hunit (by rw [← hcc]; exact hclen)
          have hc0e : (v : Int) = c0 := lit_index_inj hk
          have hcm : c ∈ s.clauses := List.get?_mem hgc
          have hcall := (hpo v).2.1 hm1 c hcm c0
            (by rw [hcc, hc0]; exact List.mem_singleton.mpr rfl)
          rcases hcall with hle | hne
          · rw [← hc0e] at hle
            omega
          · rw [← hc0e] at hne
            omega
        obtain ⟨s', b, hprop, hw', hc', hn', hp'⟩ := propagate_no_panic hw hwf hl0 hln hno
        simp only [hprop]
        cases b
        · exact ⟨Sum.inl s', rfl, fun s1 h1 => Sum.noConfusion h1⟩
        · have hln' : (-(v : Int)).natAbs ≤ s'.num_vars := by rw [hn']; exact hln
          obtain ⟨s'', hal, hc'', hn'', hwt'', hwl'', hp''⟩ := assign_lit_total hln'
          simp only [hal]
          have hw'' : WatchWf s'' := watchWf_transfer hc'' hwt'' hwl'' hw'
          have hwf'' : WfClauses s'' := by
            intro c hc l hl
            rw [hc'', hc'] at hc
            have h3 := hwf c hc l hl
            rw [hn'', hn']
            exact h3
          have hpo'' : PureOk s'' := pureOk_transfer (by rw [hc'', hc'])
            (by rw [hp'', hp']) hpo
          have hb'' : ∀ u ∈ vs, 1 ≤ u ∧ u ≤ s''.num_vars := by
            intro u hu
            have h2 := hb u (List.mem_cons_of_mem v hu)
            rw [hn'', hn']
            exact h2
          obtain ⟨r, hrec, hrc⟩ := ih s'' hw'' hwf'' hpo'' hb''
          refine ⟨r, hrec, ?_⟩
          intro s1 hr1
          rw [hrc s1 hr1, hc'', hc']
    · rw [if_neg hcond]
      exact ih s hw hwf hpo (fun u hu => hb u (List.mem_cons_of_mem v hu))

/-- Inserting into a length-sorted list keeps it sorted. -/
theorem insertByLen_sorted {c : List Int} :
    ∀ {l : List (List Int)},
      l.Pairwise (fun a b : List Int => a.length ≤ b.length) →
      (insertByLen c l).Pairwise (fun a b : List Int => a.length ≤ b.length) := by
  intro l
  induction l with
  | nil =>
    intro _
    simp [insertByLen]
  | cons d ds ih =>
    intro h
    rw [insertByLen]
    by_cases hd : d.length < c.length
    · rw [if_pos hd]
      rw [List.pairwise_cons] at h ⊢
      refine ⟨?_, ih h.2⟩
      intro a ha
      rcases List.mem_cons.mp ((insertByLen_perm c ds).mem_iff.mp ha) with h1 | h1
      · rw [h1]
        omega
      · exact h.1 a h1
    · rw [if_neg hd]
      rw [List.pairwise_cons]
      refine ⟨?_, h⟩
      intro a ha
      rcases List.mem_cons.mp ha with h1 | h1
      · rw [h1]
        omega
      · have h2 := (List.pairwise_cons.mp h).1 a h1
        omega

/-- The insertion sort of `preprocess` yields a list ascending by length. -/
theorem sortByLen_sorted :
    ∀ l : List (List Int),
      (sortByLen l).Pairwise (fun a b : List Int => a.length ≤ b.length) := by
  intro l
  induction l with
  | nil => exact List.Pairwise.nil
  | cons c cs ih =>
    rw [sortByLen]
    exact insertByLen_sorted ih

/-- An empty clause in the sorted list sits at the front. -/
theorem sorted_head_empty {l : List (List Int)} (h : [] ∈ sortByLen l) :
    (sortByLen l).get? 0 = some [] := by
  have hs := sortByLen_sorted l
  rcases he : sortByLen l with _ | ⟨c, cs⟩
  · rw [he] at h
    exact absurd h (List.not_mem_nil _)
  · rw [he] at h hs
    rcases List.mem_cons.mp h with h1 | h1
    · rw [← h1]
      rfl
    · have h2 := (List.pairwise_cons.mp hs).1 [] h1
      have hc : c = [] := List.length_eq_zero.mp (by simpa using h2)
      rw [hc]
      rfl

/-- The preprocessor keeps an empty input clause (it has no complementary
pair) and the length sort places it first. -/
theorem new_clauses_head_empty {cs : List (List Int)} (n : Nat) (h : [] ∈ cs) :
    (Solver.new cs n).clauses.get? 0 = some [] := by
  have hmem : [] ∈ sortByLen (cs.filter (fun c => !hasComplPair c)) :=
    (sortByLen_perm _).mem_iff.mpr (List.mem_filter.mpr ⟨h, rfl⟩)
  exact sorted_head_empty hmem

/-- The first scan of `bcp` reports a conflict as soon as the clause at
index 0 is empty: every literal scan yields zero unassigned literals. -/
theorem bcp_empty_head {s : Solver} (h : s.clauses.get? 0 = some []) :
    s.bcp = some (s, false) := by
  have hlen : 0 < s.clauses.length := by
    rcases hcl : s.clauses with _ | ⟨c, cs⟩
    · rw [hcl] at h
      simp at h
    · simp [hcl]
  rw [Solver.bcp, bcpLoop]
  obtain ⟨k, hk⟩ : ∃ k, s.clauses.length = k + 1 := ⟨s.clauses.length - 1, by omega⟩
  rw [hk, List.range_succ_eq_map, bcpPass]
  simp only [h]
  rfl

/-- On a freshly constructed solver whose input contains an empty clause,
`solveFuel` returns false at every positive fuel: the pure-literal pass
cannot panic, and `bcp` immediately reports the conflict on the empty
clause at index 0. -/
theorem solveFuel_false_of_empty {cs : List (List Int)} {n : Nat}
    (h : [] ∈ cs) (hwf : ∀ c ∈ cs, ∀ l ∈ c, l ≠ 0 ∧ l.natAbs ≤ n) (fuel : Nat) :
    ∃ s', solveFuel (fuel + 1) (Solver.new cs n) = some (s', false) := by
  have hw : WatchWf (Solver.new cs n) := new_watchWf cs n
  have hwfc : WfClauses (Solver.new cs n) := (new_inv cs n hwf).1
  have hpo : PureOk (Solver.new cs n) := new_pureOk cs n
  have hbounds : ∀ v ∈ List.range' 1 (Solver.new cs n).num_vars,
      1 ≤ v ∧ v ≤ (Solver.new cs n).num_vars := by
    intro v hv
    have h2 := List.mem_range'_1.mp hv
    omega
  obtain ⟨r, hpl, hrc⟩ := pureLoop_no_panic (List.range' 1 (Solver.new cs n).num_vars)
    (Solver.new cs n) hw hwfc hpo hbounds
  have hh0 : (Solver.new cs n).history.length = 0 := rfl
  have hif : (if (Solver.new cs n).history.length = 0
      then pureLoop (Solver.new cs n) (List.range' 1 (Solver.new cs n).num_vars)
      else some (Sum.inr (Solver.new cs n))) = some r := by
    rw [if_pos hh0, hpl]
  rw [solveFuel]
  rcases r with s1 | s1
  · simp only [hif]
    exact ⟨s1.backtrack (Solver.new cs n).history.length, rfl⟩
  · have hbcp : s1.bcp = some (s1, false) := by
      refine bcp_empty_head ?_
      rw [hrc s1 rfl]
      exact new_clauses_head_empty n h
    simp only [hif, hbcp]
    exact ⟨s1.backtrack (Solver.new cs n).history.length, rfl⟩

/-- C4: a clause with zero literals survives the preprocessor — the
tautology filter keeps it and the length sort moves it to index 0 — and on
every clause set containing an empty clause (literals of the other clauses
in range) `solve` returns false, at every recursion fuel and at the entry
point's own fuel; the conflict itself is reported by the propagation scan
`bcp`, which returns false on any state whose clause 0 is empty, not by the
preprocessor. -/
theorem C4_empty_clause_preserved_and_unsat :
    (∀ (cs : List (List Int)) (n : Nat), [] ∈ cs →
        (Solver.new cs n).clauses.get? 0 = some []) ∧
    (∀ s : Solver, s.clauses.get? 0 = some [] → s.bcp = some (s, false)) ∧
    (∀ (cs : List (List Int)) (n : Nat), [] ∈ cs →
        (∀ c ∈ cs, ∀ l ∈ c, l ≠ 0 ∧ l.natAbs ≤ n) →
        (∀ fuel, ∃ s', solveFuel (fuel + 1) (Solver.new cs n) = some (s', false)) ∧
        ∃ s', (Solver.new cs n).solve = some (s', false)) := by
  refine ⟨fun cs n h => new_clauses_head_empty n h, fun s h => bcp_empty_head h, ?_⟩
  intro cs n h hwf
  refine ⟨fun fuel => solveFuel_false_of_empty h hwf fuel, ?_⟩
  obtain ⟨s', hs'⟩ := solveFuel_false_of_empty h hwf ((Solver.new cs n).num_vars + 1)
  exact ⟨s', hs'⟩

/-- Witness for C4 on `{[1], []}` with one variable: the empty clause is
kept at index 0, `bcp` reports the conflict, and `solve` returns false. -/
theorem C4_empty_clause_preserved_and_unsat_witness :
    (Solver.new [[1], []] 1).clauses.get? 0 = some [] ∧
    (Solver.new [[1], []] 1).bcp = some (Solver.new [[1], []] 1, false) ∧
    ∃ s', (Solver.new [[1], []] 1).solve = some (s', false) := by
  refine ⟨C4_empty_clause_preserved_and_unsat.1 [[1], []] 1 (by simp), ?_, ?_⟩
  · exact C4_empty_clause_preserved_and_unsat.2.1 (Solver.new [[1], []] 1) (by rfl)
  · exact (C4_empty_clause_preserved_and_unsat.2.2 [[1], []] 1 (by simp) (by decide)).2

end RustSAT
